import Mathlib

/-!
# Escape-time evaluation over a grid (`mandelbrot/mandelbrot.c`)

A shallow embedding of the C program, and theorems about it.  The program is described twice.

* In exact arithmetic: a C `double` is a rational number, or a single non-finite value
  standing for the infinities and NaN that a division by zero produces; `double complex` is a
  pair of such values with the usual arithmetic.  Rounding and overflow are not modelled, so
  this description serves the properties that are stated in exact arithmetic or that do not
  depend on the values computed.
* Over an arbitrary machine (`Machine`): the types `double` and `double complex`, their
  operations, the test `cabs(z) < 2` and the conversions `atof` and `%f` are parameters, so
  what is proved holds whatever the rounding is.  There the variables `z` and `iter` of `main`
  start with arbitrary values, as in the source, and the output file has a previous content.
  The machine of exact arithmetic (`exactMachine`) is one instance, and on finite bounds it
  writes the file of the first description.

The output file is the list of its newline-terminated lines.
-/

namespace Mandelbrot

/-! ## Numbers -/

/-- Value of a C `double`: a finite value, or a non-finite one (an infinity or a NaN). -/
inductive Dbl where
  | fin (q : ℚ)
  | nonfinite
deriving DecidableEq

namespace Dbl

/-- Addition of doubles: a non-finite operand gives a non-finite result. -/
def add : Dbl → Dbl → Dbl
  | fin a, fin b => fin (a + b)
  | _, _ => nonfinite

/-- Subtraction of doubles. -/
def sub : Dbl → Dbl → Dbl
  | fin a, fin b => fin (a - b)
  | _, _ => nonfinite

/-- Multiplication of doubles (`0 * inf` is NaN, hence non-finite as well). -/
def mul : Dbl → Dbl → Dbl
  | fin a, fin b => fin (a * b)
  | _, _ => nonfinite

/-- Division of doubles: a zero divisor gives an infinity or a NaN.  Every divisor of the
program is a converted `int`, hence finite. -/
def div : Dbl → Dbl → Dbl
  | fin a, fin b => if b = 0 then nonfinite else fin (a / b)
  | _, _ => nonfinite

instance : Add Dbl := ⟨add⟩
instance : Sub Dbl := ⟨sub⟩
instance : Mul Dbl := ⟨mul⟩
instance : Div Dbl := ⟨div⟩

/-- Conversion of an `int` to `double` (exact). -/
def ofInt (n : Int) : Dbl := fin (n : ℚ)

end Dbl

/-- Value of a C `double complex`. -/
structure Cx where
  re : Dbl
  im : Dbl
deriving DecidableEq

namespace Cx

/-- Conversion of a real `double` to `double complex`. -/
def ofReal (x : Dbl) : Cx := ⟨x, Dbl.fin 0⟩

/-- The finite complex number `a + b i`. -/
def ofRat (a b : ℚ) : Cx := ⟨Dbl.fin a, Dbl.fin b⟩

/-- The constant `I` of `<complex.h>`. -/
def I : Cx := ⟨Dbl.fin 0, Dbl.fin 1⟩

/-- Complex addition. -/
def add (z w : Cx) : Cx := ⟨z.re + w.re, z.im + w.im⟩

/-- Complex multiplication. -/
def mul (z w : Cx) : Cx := ⟨z.re * w.re - z.im * w.im, z.re * w.im + z.im * w.re⟩

instance : Add Cx := ⟨add⟩
instance : Mul Cx := ⟨mul⟩

/-- A real operand added to a complex one: only the real part changes. -/
def realAdd (x : Dbl) (z : Cx) : Cx := ⟨x + z.re, z.im⟩

/-- A real operand times a complex one: both parts are scaled. -/
def realMul (x : Dbl) (z : Cx) : Cx := ⟨x * z.re, x * z.im⟩

end Cx

/-- The test `cabs(z) < 2`.  In exact arithmetic `sqrt (re^2 + im^2) < 2` is decided on the
squares; `cabs` of a non-finite value is an infinity or a NaN, and the comparison is false. -/
def cabsLt2 : Cx → Bool
  | ⟨Dbl.fin a, Dbl.fin b⟩ => decide (a * a + b * b < 4)
  | _ => false

/-! ## `convergence` -/

/-- The constant of `#define MAX_ITER 80`. -/
def MAX_ITER : Nat := 80

/-- The local variables `z` and `iter` of `convergence`. -/
structure LoopState where
  z : Cx
  iter : Nat
deriving DecidableEq

/-- The loop condition `cabs(z) < 2 && iter <= MAX_ITER`. -/
def loopCond (s : LoopState) : Bool := cabsLt2 s.z && decide (s.iter ≤ MAX_ITER)

/-- The loop body `z = z*z + *c; iter++;`. -/
def loopBody (c : Cx) (s : LoopState) : LoopState := ⟨s.z * s.z + c, s.iter + 1⟩

/-- The `while` loop of `convergence`, from the state `s`. -/
def whileLoop (c : Cx) (s : LoopState) : LoopState :=
  if loopCond s = true then whileLoop c (loopBody c s) else s
termination_by MAX_ITER + 1 - s.iter
decreasing_by
  rename_i h
  simp only [loopCond, Bool.and_eq_true, decide_eq_true_eq] at h
  simp only [loopBody]
  omega

/-- The state on entry to the loop: `int iter = 0; double complex z = 0;`. -/
def initState : LoopState := ⟨Cx.ofReal (Dbl.fin 0), 0⟩

/-- The function `int convergence(double complex* c)`: the initial state, the loop,
`return iter`. -/
def convergence (c : Cx) : Nat := (whileLoop c initState).iter

/-- The orbit `z_0 = 0`, `z_{k+1} = z_k * z_k + c` over the complex numbers, in which the
claims about `convergence` are stated. -/
def orbit (c : ℂ) : ℕ → ℂ
  | 0 => 0
  | n + 1 => orbit c n * orbit c n + c

/-- The same orbit in rational arithmetic: real and imaginary part of `z_n` for `c = a + b i`. -/
def orbitQ (a b : ℚ) : ℕ → ℚ × ℚ
  | 0 => (0, 0)
  | n + 1 =>
    ((orbitQ a b n).1 * (orbitQ a b n).1 - (orbitQ a b n).2 * (orbitQ a b n).2 + a,
     (orbitQ a b n).1 * (orbitQ a b n).2 + (orbitQ a b n).2 * (orbitQ a b n).1 + b)

/-- The state after `n` executions of the loop body. -/
def stateAfter (c : Cx) (n : Nat) : LoopState := (loopBody c)^[n] initState

/-! ## Text conversions of the C library -/

/-- The characters for which `isspace` is true. -/
def isSpace (ch : Char) : Bool :=
  ch = ' ' || ch = '\t' || ch = '\n' || ch = '\x0b' || ch = '\x0c' || ch = '\r'

/-- Skips leading white space. -/
def skipSpace : List Char → List Char
  | [] => []
  | ch :: cs => if isSpace ch then skipSpace cs else ch :: cs

/-- Reads an optional sign: whether it is a minus, and the rest. -/
def readSign : List Char → Bool × List Char
  | [] => (false, [])
  | ch :: cs =>
    if ch = '-' then (true, cs) else if ch = '+' then (false, cs) else (false, ch :: cs)

/-- Value of a decimal digit character. -/
def digitVal (ch : Char) : Nat := ch.toNat - 48

/-- Reads the longest run of decimal digits: with `acc` the value and `k` the number of the
digits read before, the value and the number of digits read in all, and the rest. -/
def readDigits : List Char → Nat → Nat → Nat × Nat × List Char
  | [], acc, k => (acc, k, [])
  | ch :: cs, acc, k =>
    if ch.isDigit then readDigits cs (10 * acc + digitVal ch) (k + 1) else (acc, k, ch :: cs)

/-- The function `atoi`: white space, an optional sign and decimal digits; whatever follows
the digits is ignored, and no digits give 0.  The result is `none` when the value is not
representable in a 32-bit `int`, where the C library leaves the behaviour undefined. -/
def atoi (s : String) : Option Int :=
  let sc := readSign (skipSpace s.toList)
  let d := readDigits sc.2 0 0
  let n : Int := if sc.1 then -(d.1 : Int) else (d.1 : Int)
  if -2147483648 ≤ n ∧ n ≤ 2147483647 then some n else none

/-- The fraction part of a decimal floating constant: after a point, the digits read as a
numerator over a power of ten. -/
def readFraction : List Char → ℚ × List Char
  | [] => (0, [])
  | ch :: cs =>
    if ch = '.' then
      ((readDigits cs 0 0).1 / 10 ^ (readDigits cs 0 0).2.1, (readDigits cs 0 0).2.2)
    else (0, ch :: cs)

/-- The exponent part of a decimal floating constant: `e` or `E`, an optional sign and
digits, as the power of ten it stands for. -/
def readExponent : List Char → ℚ
  | ch :: cs =>
    if ch = 'e' ∨ ch = 'E' then
      if (readSign cs).1 then 1 / 10 ^ (readDigits (readSign cs).2 0 0).1
      else 10 ^ (readDigits (readSign cs).2 0 0).1
    else 1
  | [] => 1

/-- The function `atof` on decimal input, in exact arithmetic: white space, an optional sign,
digits, an optional fraction and an optional exponent; whatever follows is ignored, and no
digits give 0.  The spellings of infinity and NaN, an overflow and negative zero are left to
`atofFull` below; hexadecimal constants are not modelled. -/
def atof (s : String) : ℚ :=
  let sc := readSign (skipSpace s.toList)
  let ip := readDigits sc.2 0 0
  let fp := readFraction ip.2.2
  let v : ℚ := ((ip.1 : ℚ) + fp.1) * readExponent fp.2
  if sc.1 then -v else v

/-- Character of a decimal digit. -/
def digitChar (d : Nat) : Char := Char.ofNat (48 + d % 10)

/-- The decimal digits of a natural number, most significant first, in front of `ds`;
`fuel` bounds the number of digits. -/
def natDigits : Nat → Nat → List Char → List Char
  | 0, _, ds => ds
  | fuel + 1, n, ds =>
    if n / 10 = 0 then digitChar n :: ds else natDigits fuel (n / 10) (digitChar n :: ds)

/-- Conversion `%i` or `%d` of `fprintf`: a minus sign for a negative number, and the decimal
digits. -/
def fmtInt (n : Int) : String :=
  String.mk ((if n < 0 then ['-'] else []) ++ natDigits (n.natAbs + 1) n.natAbs [])

/-- Rounding of a non-negative rational to the nearest natural number, ties to even. -/
def roundHalfEven (r : ℚ) : Nat :=
  let f : Nat := ⌊r⌋₊
  if r - f < 1 / 2 then f
  else if 1 / 2 < r - f then f + 1
  else if f % 2 = 0 then f else f + 1

/-- The six digits after the decimal point, for a number of millionths below one. -/
def sixDigits (m : Nat) : List Char :=
  [digitChar (m / 100000), digitChar (m / 10000), digitChar (m / 1000),
   digitChar (m / 100), digitChar (m / 10), digitChar m]

/-- Conversion `%f` of `fprintf` for a finite value, in exact arithmetic: a minus sign for a
negative number, the integer part, a point and six digits, the value being rounded to the
nearest millionth. -/
def fmtFixed (q : ℚ) : String :=
  let m : Nat := roundHalfEven (|q| * 1000000)
  String.mk ((if q < 0 then ['-'] else []) ++
    natDigits (m / 1000000 + 1) (m / 1000000) [] ++ '.' :: sixDigits (m % 1000000))

/-! ## `main` -/

/-- The output file: the lines written so far, each without its terminating newline. -/
abbrev File := List String

/-- The inner loop `for (int j = 0; j < Nx; j++)` from column `j` on: evaluate at `z`, write
the count on a line of its own, `z += dx`.  Returns `z` and the file. -/
def colLoop (dx : Cx) (Nx : Int) (j : Nat) (z : Cx) (fp : File) : Cx × File :=
  if (j : Int) < Nx then
    colLoop dx Nx (j + 1) (z + dx) (fp ++ [fmtInt (convergence z)])
  else (z, fp)
termination_by (Nx - j).toNat
decreasing_by omega

/-- The value assigned at the start of row `i`: `z = x0 + (y0+i*dy)*I`, with `x0`, `y0` of
type `double`, `i` an `int` and `dy` complex. -/
def rowStart (x0 y0 : Dbl) (dy : Cx) (i : Nat) : Cx :=
  Cx.realAdd x0 (Cx.realAdd y0 (Cx.realMul (Dbl.ofInt i) dy) * Cx.I)

/-- The outer loop `for (int i = 0; i < Ny; i++)` from row `i` on: the assignment to `z`,
then the inner loop. -/
def rowLoop (x0 y0 : Dbl) (dx dy : Cx) (Nx Ny : Int) (i : Nat) (fp : File) : File :=
  if (i : Int) < Ny then
    rowLoop x0 y0 dx dy Nx Ny (i + 1) (colLoop dx Nx 0 (rowStart x0 y0 dy i) fp).2
  else fp
termination_by (Ny - i).toNat
decreasing_by omega

/-- The header line, `"%f %f %i %f %f %i\n"`. -/
def header (x0 x1 : ℚ) (Nx : Int) (y0 y1 : ℚ) (Ny : Int) : String :=
  fmtFixed x0 ++ " " ++ fmtFixed x1 ++ " " ++ fmtInt Nx ++ " " ++
    fmtFixed y0 ++ " " ++ fmtFixed y1 ++ " " ++ fmtInt Ny

/-- The step `dx` of `main`: `(x1-x0)/(Nx-1)`, converted to `double complex`. -/
def stepX (x0 x1 : ℚ) (Nx : Int) : Cx :=
  Cx.ofReal ((Dbl.fin x1 - Dbl.fin x0) / Dbl.ofInt (Nx - 1))

/-- The step `dy` of `main`: `(y1-y0)/(Ny-1)`, converted to `double complex`. -/
def stepY (y0 y1 : ℚ) (Ny : Int) : Cx :=
  Cx.ofReal ((Dbl.fin y1 - Dbl.fin y0) / Dbl.ofInt (Ny - 1))

/-- The part of `main` after the arguments are parsed: the steps, the header, the two loops.
The result is the content of the file at `fclose`. -/
def mainBody (x0 x1 : ℚ) (Nx : Int) (y0 y1 : ℚ) (Ny : Int) : File :=
  rowLoop (Dbl.fin x0) (Dbl.fin y0) (stepX x0 x1 Nx) (stepY y0 y1 Ny) Nx Ny 0
    [header x0 x1 Nx y0 y1 Ny]

/-- The function `main` on its argument vector: the content of the file it writes, or `none`
where the behaviour is undefined (fewer than seven arguments, or an `atoi` out of range).
`x0` is read by `atoi`, the other three bounds by `atof`. -/
def main (argv : List String) : Option File :=
  match argv with
  | _ :: a1 :: a2 :: a3 :: a4 :: a5 :: a6 :: _ :: _ =>
    match atoi a1, atoi a3, atoi a6 with
    | some x0, some Nx, some Ny =>
      some (mainBody (x0 : ℚ) (atof a2) Nx (atof a4) (atof a5) Ny)
    | _, _, _ => none
  | _ => none

/-! ## The points of the grid -/

/-- The points visited along a row: `n` points from `z`, each the previous one plus `dx`. -/
def colPoints (dx : Cx) : Nat → Cx → List Cx
  | 0, _ => []
  | n + 1, z => z :: colPoints dx n (z + dx)

/-- The points visited over `m` rows from row `i` on, `nx` points a row, row after row. -/
def gridPoints (x0 y0 : Dbl) (dx dy : Cx) (nx : Nat) : Nat → Nat → List Cx
  | 0, _ => []
  | m + 1, i => colPoints dx nx (rowStart x0 y0 dy i) ++ gridPoints x0 y0 dx dy nx m (i + 1)

/-- The line written for a point: its count, by `"%d\n"`. -/
def resultLine (z : Cx) : String := fmtInt (convergence z)

/-! ## Reading decimal text -/

/-- The number written by a list of decimal digits. -/
def digitsValue (cs : List Char) : Nat := cs.foldl (fun a ch => 10 * a + digitVal ch) 0

/-- The text `s` is the number `q` in fixed notation with six digits after the point: a minus
sign exactly when `q` is negative, at least one digit, a point and six digits, which read
as `|q|` to within half a millionth. -/
def IsFixedSix (q : ℚ) (s : String) : Prop :=
  ∃ ip fp : List Char,
    s.toList = (if q < 0 then ['-'] else []) ++ ip ++ '.' :: fp ∧
    ip ≠ [] ∧ (∀ ch ∈ ip, ch.isDigit = true) ∧
    fp.length = 6 ∧ (∀ ch ∈ fp, ch.isDigit = true) ∧
    abs ((digitsValue ip : ℚ) + (digitsValue fp : ℚ) / 1000000 - abs q) ≤ 1 / 2000000

/-- The text `s` is the integer `n` in plain decimal: a minus sign exactly when `n` is
negative, and the digits of its absolute value. -/
def IsPlainDecimal (n : Int) (s : String) : Prop :=
  ∃ ds : List Char,
    s.toList = (if n < 0 then ['-'] else []) ++ ds ∧
    ds ≠ [] ∧ (∀ ch ∈ ds, ch.isDigit = true) ∧ digitsValue ds = n.natAbs

/-! ## Decimal arguments -/

namespace DecimalArg

end DecimalArg

/-- Negation of a `double`. -/
def Dbl.neg : Dbl → Dbl
  | Dbl.fin a => Dbl.fin (-a)
  | Dbl.nonfinite => Dbl.nonfinite

/-- The complex conjugate, `conj` of `<complex.h>`: the imaginary part is negated. -/
def Cx.conj (z : Cx) : Cx := ⟨z.re, Dbl.neg z.im⟩

/-! ## The two forms of the loop test -/

/-- The loop test on the modulus, as `cabs` has it: `sqrt (re^2 + im^2) < 2` over the real
numbers.  The modulus of a non-finite value is an infinity or a NaN, which is not below 2. -/
def modulusLt2 : Cx → Prop
  | ⟨Dbl.fin a, Dbl.fin b⟩ => Real.sqrt ((a : ℝ) ^ 2 + (b : ℝ) ^ 2) < 2
  | _ => False

/-- Evaluation with the test on the modulus: from the state `s`, the loop
`while (modulus < 2 && iter <= MAX_ITER) { z = z*z + c; iter++; }` ends with `iter = n`. -/
inductive ModulusEval (c : Cx) : LoopState → Nat → Prop
  | done (s : LoopState) :
      ¬ (modulusLt2 s.z ∧ s.iter ≤ MAX_ITER) → ModulusEval c s s.iter
  | step (s : LoopState) (n : Nat) :
      modulusLt2 s.z → s.iter ≤ MAX_ITER → ModulusEval c (loopBody c s) n →
        ModulusEval c s n

/-- The loop test of the squared-magnitude variant: `re^2 + im^2 < 4`. -/
def squaredLt4 : Cx → Bool
  | ⟨Dbl.fin a, Dbl.fin b⟩ => decide (a ^ 2 + b ^ 2 < 4)
  | _ => false

/-- The loop of the squared-magnitude variant, from the state `s`. -/
def squaredLoop (c : Cx) (s : LoopState) : LoopState :=
  if (squaredLt4 s.z && decide (s.iter ≤ MAX_ITER)) = true then squaredLoop c (loopBody c s)
  else s
termination_by MAX_ITER + 1 - s.iter
decreasing_by
  rename_i h
  simp only [Bool.and_eq_true, decide_eq_true_eq] at h
  simp only [loopBody]
  omega

/-- The evaluator of the squared-magnitude variant. -/
def convergenceSquared (c : Cx) : Nat := (squaredLoop c initState).iter

/-! ## The bytes of the file -/

/-- The content of the file as text: every line followed by its newline. -/
def fileText (f : File) : String := String.join (f.map (fun l => l ++ "\n"))

/-! ## The arguments `atof` reads, non-finite ones included -/

/-- What `atof` returns for an argument, as far as the conversion `%f` tells values apart: a
finite value other than negative zero, negative zero, an infinity or a NaN with its sign. -/
inductive FloatArg where
  | finite (q : ℚ)
  | negZero
  | infinity (neg : Bool)
  | notANumber (neg : Bool)

namespace FloatArg

/-- The value the arithmetic of the program works on. -/
def toDbl : FloatArg → Dbl
  | finite q => Dbl.fin q
  | negZero => Dbl.fin 0
  | infinity _ => Dbl.nonfinite
  | notANumber _ => Dbl.nonfinite

/-- A computed value as a `double`; computed values are never printed, so a non-finite one is
not told apart further. -/
def ofDbl : Dbl → FloatArg
  | Dbl.fin q => finite q
  | Dbl.nonfinite => notANumber false

/-- The argument is neither an infinity nor a NaN. -/
def IsFinite : FloatArg → Prop
  | finite _ => True
  | negZero => True
  | infinity _ => False
  | notANumber _ => False

end FloatArg

/-- Whether `cs` starts with the letters `pre` (given in lower case), in either case. -/
def startsWithNoCase (pre cs : List Char) : Bool :=
  (cs.take pre.length).map Char.toLower == pre

/-- The number of digits in the mantissa of a decimal floating constant. -/
def mantissaDigits (cs : List Char) : Nat :=
  (readDigits cs 0 0).2.1 +
    (match (readDigits cs 0 0).2.2 with
      | [] => 0
      | ch :: ds => if ch = '.' then (readDigits ds 0 0).2.1 else 0)

/-- The least magnitude that rounds to an infinity: the largest `double` plus half a unit in
its last place, `2^1024 - 2^970`. -/
def overflowBound : ℚ := 2 ^ 1024 - 2 ^ 970

/-- The function `atof` on every argument but a hexadecimal constant: the spellings of infinity
and NaN, a decimal value too large for a `double`, negative zero, and otherwise the decimal
value `atof` of above. -/
def atofFull (s : String) : FloatArg :=
  let sc := readSign (skipSpace s.toList)
  if startsWithNoCase ['i', 'n', 'f'] sc.2 then FloatArg.infinity sc.1
  else if startsWithNoCase ['n', 'a', 'n'] sc.2 then FloatArg.notANumber sc.1
  else if overflowBound ≤ |atof s| then FloatArg.infinity sc.1
  else if sc.1 = true ∧ atof s = 0 ∧ 0 < mantissaDigits sc.2 then FloatArg.negZero
  else FloatArg.finite (atof s)

/-- Conversion `%f` of `fprintf` for every value: fixed notation for a finite value, and the
words `inf` and `nan` with their sign. -/
def fmtFloat : FloatArg → String
  | FloatArg.finite q => fmtFixed q
  | FloatArg.negZero => "-0.000000"
  | FloatArg.infinity false => "inf"
  | FloatArg.infinity true => "-inf"
  | FloatArg.notANumber false => "nan"
  | FloatArg.notANumber true => "-nan"

/-- The text `s` has the shape of fixed notation with six digits after the point: an optional
minus sign, at least one digit, a point and six digits. -/
def FixedSixShape (s : String) : Prop :=
  ∃ sg ip fp : List Char,
    s.toList = sg ++ ip ++ '.' :: fp ∧ (sg = [] ∨ sg = ['-']) ∧
    ip ≠ [] ∧ (∀ ch ∈ ip, ch.isDigit = true) ∧
    fp.length = 6 ∧ (∀ ch ∈ fp, ch.isDigit = true)

/-! ## The program over an arbitrary machine arithmetic -/

/-- The arithmetic and the conversions the program relies on, left open: the types `double`
and `double complex`, the operations the source applies to them, each with whatever rounding
and special values the machine has, the test `cabs(z) < 2`, and the conversions `atof` and
`%f`.  The one fact assumed is that the modulus of zero is below 2. -/
structure Machine where
  R : Type
  C : Type
  ofInt : Int → R
  sub : R → R → R
  div : R → R → R
  toComplex : R → C
  realAdd : R → C → C
  realMul : R → C → C
  add : C → C → C
  mul : C → C → C
  imagUnit : C
  cabsLt2 : C → Bool
  atof : String → R
  fmtF : R → String
  cabsLt2_zero : cabsLt2 (toComplex (ofInt 0)) = true

namespace Machine

/-- The local variables `z` and `iter` of `convergence`. -/
structure LoopVars (M : Machine) where
  z : M.C
  iter : Nat

/-- The loop condition `cabs(z) < 2 && iter <= MAX_ITER`. -/
def loopCond (M : Machine) (s : M.LoopVars) : Bool :=
  M.cabsLt2 s.z && decide (s.iter ≤ MAX_ITER)

/-- The loop body `z = z*z + *c; iter++;`. -/
def loopBody (M : Machine) (c : M.C) (s : M.LoopVars) : M.LoopVars :=
  ⟨M.add (M.mul s.z s.z) c, s.iter + 1⟩

/-- The `while` loop of `convergence`, from the state `s`. -/
def whileLoop (M : Machine) (c : M.C) (s : M.LoopVars) : M.LoopVars :=
  if M.loopCond s = true then M.whileLoop c (M.loopBody c s) else s
termination_by MAX_ITER + 1 - s.iter
decreasing_by
  rename_i h
  simp only [loopCond, Bool.and_eq_true, decide_eq_true_eq] at h
  simp only [loopBody]
  omega

/-- The state on entry to the loop: `int iter = 0; double complex z = 0;`. -/
def initVars (M : Machine) : M.LoopVars := ⟨M.toComplex (M.ofInt 0), 0⟩

/-- The function `int convergence(double complex* c)`: the initial state, the loop,
`return iter`.  The pointer is only read. -/
def convergence (M : Machine) (c : M.C) : Nat := (M.whileLoop c M.initVars).iter

/-- The orbit the machine computes: `z_0 = 0`, `z_{k+1} = z_k * z_k + c` with the machine's
product and sum. -/
def orbit (M : Machine) (c : M.C) : Nat → M.C
  | 0 => M.toComplex (M.ofInt 0)
  | n + 1 => M.add (M.mul (M.orbit c n) (M.orbit c n)) c

/-- The variables of `main` that the loops change: `z`, `iter` and the file.  `z` and `iter`
are declared without a value. -/
structure MainVars (M : Machine) where
  z : M.C
  iter : Int
  fp : File

/-- The inner loop `for (int j = 0; j < Nx; j++)` from column `j` on:
`iter = convergence(&z); fprintf(fp, "%d\n", iter); z += dx;`. -/
def colLoop (M : Machine) (dx : M.C) (Nx : Int) (j : Nat) (v : M.MainVars) : M.MainVars :=
  if (j : Int) < Nx then
    M.colLoop dx Nx (j + 1)
      ⟨M.add v.z dx, (M.convergence v.z : Int), v.fp ++ [fmtInt (M.convergence v.z)]⟩
  else v
termination_by (Nx - j).toNat
decreasing_by omega

/-- The value assigned at the start of row `i`: `z = x0 + (y0+i*dy)*I`. -/
def rowStart (M : Machine) (x0 y0 : M.R) (dy : M.C) (i : Nat) : M.C :=
  M.realAdd x0 (M.mul (M.realAdd y0 (M.realMul (M.ofInt i) dy)) M.imagUnit)

/-- The outer loop `for (int i = 0; i < Ny; i++)` from row `i` on: the assignment to `z`,
then the inner loop. -/
def rowLoop (M : Machine) (x0 y0 : M.R) (dx dy : M.C) (Nx Ny : Int) (i : Nat)
    (v : M.MainVars) : M.MainVars :=
  if (i : Int) < Ny then
    M.rowLoop x0 y0 dx dy Nx Ny (i + 1)
      (M.colLoop dx Nx 0 ⟨M.rowStart x0 y0 dy i, v.iter, v.fp⟩)
  else v
termination_by (Ny - i).toNat
decreasing_by omega

/-- The header line, `"%f %f %i %f %f %i\n"`. -/
def header (M : Machine) (x0 x1 : M.R) (Nx : Int) (y0 y1 : M.R) (Ny : Int) : String :=
  M.fmtF x0 ++ " " ++ M.fmtF x1 ++ " " ++ fmtInt Nx ++ " " ++
    M.fmtF y0 ++ " " ++ M.fmtF y1 ++ " " ++ fmtInt Ny

/-- The call `fopen(filename, "w+")`: whatever the file held before, it is now empty. -/
def fopenTruncate (_old : File) : File := []

/-- The part of `main` after the arguments are parsed.  `z0` and `iter0` are the values `z`
and `iter` happen to hold when they are declared, `old` is the previous content of the output
file; the result is the content of the file at `fclose`. -/
def mainBody (M : Machine) (x0 x1 : M.R) (Nx : Int) (y0 y1 : M.R) (Ny : Int)
    (z0 : M.C) (iter0 : Int) (old : File) : File :=
  (M.rowLoop x0 y0 (M.toComplex (M.div (M.sub x1 x0) (M.ofInt (Nx - 1))))
    (M.toComplex (M.div (M.sub y1 y0) (M.ofInt (Ny - 1)))) Nx Ny 0
    ⟨z0, iter0, fopenTruncate old ++ [M.header x0 x1 Nx y0 y1 Ny]⟩).fp

/-- The function `main` on its argument vector, with the initial garbage `z0`, `iter0` and the
previous content `old` of the output file: the content of the file it writes, or `none` where
the behaviour is undefined (fewer than seven arguments, or an `atoi` out of range). -/
def main (M : Machine) (argv : List String) (z0 : M.C) (iter0 : Int) (old : File) :
    Option File :=
  match argv with
  | _ :: a1 :: a2 :: a3 :: a4 :: a5 :: a6 :: _ :: _ =>
    match atoi a1, atoi a3, atoi a6 with
    | some x0, some Nx, some Ny =>
      some (M.mainBody (M.ofInt x0) (M.atof a2) Nx (M.atof a4) (M.atof a5) Ny z0 iter0 old)
    | _, _, _ => none
  | _ => none

/-- The points visited along a row: `n` points from `z`, each the previous one plus `dx`. -/
def colPoints (M : Machine) (dx : M.C) : Nat → M.C → List M.C
  | 0, _ => []
  | n + 1, z => z :: M.colPoints dx n (M.add z dx)

/-- The points visited over `m` rows from row `i` on, `nx` points a row, row after row. -/
def gridPoints (M : Machine) (x0 y0 : M.R) (dx dy : M.C) (nx : Nat) : Nat → Nat → List M.C
  | 0, _ => []
  | m + 1, i =>
    M.colPoints dx nx (M.rowStart x0 y0 dy i) ++ M.gridPoints x0 y0 dx dy nx m (i + 1)

end Machine

/-- The machine of exact arithmetic: the numbers of the first part of this file, with `atof`
and `%f` on every argument.  A value computed from the bounds is kept as its `Dbl` value. -/
def exactMachine : Machine where
  R := FloatArg
  C := Cx
  ofInt n := FloatArg.finite (n : ℚ)
  sub a b := FloatArg.ofDbl (a.toDbl - b.toDbl)
  div a b := FloatArg.ofDbl (a.toDbl / b.toDbl)
  toComplex r := Cx.ofReal r.toDbl
  realAdd r w := Cx.realAdd r.toDbl w
  realMul r w := Cx.realMul r.toDbl w
  add z w := z + w
  mul z w := z * w
  imagUnit := Cx.I
  cabsLt2 := cabsLt2
  atof := atofFull
  fmtF := fmtFloat
  cabsLt2_zero := by simp [cabsLt2, Cx.ofReal, FloatArg.toDbl]

/-! ## Theorems -/

theorem loopCond_iter_le {s : LoopState} (h : loopCond s = true) : s.iter ≤ MAX_ITER := by
  simp only [loopCond, Bool.and_eq_true, decide_eq_true_eq] at h
  exact h.2

theorem whileLoop_of_cond {c : Cx} {s : LoopState} (h : loopCond s = true) :
    whileLoop c s = whileLoop c (loopBody c s) := by
  rw [whileLoop, if_pos h]

theorem whileLoop_of_not_cond {c : Cx} {s : LoopState} (h : loopCond s = false) :
    whileLoop c s = s := by
  rw [whileLoop, if_neg (by simp [h])]

theorem whileLoop_iterate (c : Cx) (k : Nat) :
    ∀ s : LoopState, (∀ j, j < k → loopCond ((loopBody c)^[j] s) = true) →
      whileLoop c s = whileLoop c ((loopBody c)^[k] s) := by
  induction k with
  | zero => intro s _; rfl
  | succ k ih =>
    intro s h
    have h0 : loopCond s = true := h 0 (Nat.succ_pos k)
    rw [whileLoop_of_cond h0, Function.iterate_succ_apply]
    exact ih _ (fun j hj => by
      have := h (j + 1) (Nat.succ_lt_succ hj)
      rwa [Function.iterate_succ_apply] at this)

theorem iterate_loopBody_iter (c : Cx) (s : LoopState) (n : Nat) :
    ((loopBody c)^[n] s).iter = s.iter + n := by
  induction n with
  | zero => rfl
  | succ n ih => rw [Function.iterate_succ_apply', loopBody, ih]; rfl

theorem stateAfter_iter (c : Cx) (n : Nat) : (stateAfter c n).iter = n := by
  rw [stateAfter, iterate_loopBody_iter]; simp [initState]

theorem loopCond_stateAfter_cap (c : Cx) : loopCond (stateAfter c (MAX_ITER + 1)) = false := by
  cases h : loopCond (stateAfter c (MAX_ITER + 1)) with
  | false => rfl
  | true =>
    have := loopCond_iter_le h
    rw [stateAfter_iter] at this
    omega

theorem exists_exit (c : Cx) : ∃ k, loopCond (stateAfter c k) = false :=
  ⟨MAX_ITER + 1, loopCond_stateAfter_cap c⟩

/-- The loop of `convergence` stops at the first state whose condition is false. -/
theorem whileLoop_eq_first_exit (c : Cx) (k : Nat)
    (hlt : ∀ j, j < k → loopCond (stateAfter c j) = true)
    (hk : loopCond (stateAfter c k) = false) :
    whileLoop c initState = stateAfter c k := by
  rw [whileLoop_iterate c k initState hlt]
  exact whileLoop_of_not_cond hk

theorem convergence_eq_first_exit (c : Cx) (k : Nat)
    (hlt : ∀ j, j < k → loopCond (stateAfter c j) = true)
    (hk : loopCond (stateAfter c k) = false) :
    convergence c = k := by
  have h := whileLoop_eq_first_exit c k hlt hk
  rw [convergence, h, stateAfter_iter]

/-! ### Finite arguments: the loop follows the orbit -/

theorem stateAfter_ofRat (a b : ℚ) (n : Nat) :
    stateAfter (Cx.ofRat a b) n = ⟨Cx.ofRat (orbitQ a b n).1 (orbitQ a b n).2, n⟩ := by
  induction n with
  | zero => rfl
  | succ n ih =>
    rw [stateAfter, Function.iterate_succ_apply', ← stateAfter, ih]
    rfl

theorem orbit_eq_orbitQ (a b : ℚ) (n : Nat) :
    orbit ⟨a, b⟩ n = ⟨((orbitQ a b n).1 : ℝ), ((orbitQ a b n).2 : ℝ)⟩ := by
  induction n with
  | zero => apply Complex.ext <;> simp [orbit, orbitQ]
  | succ n ih =>
    rw [orbit, ih]
    apply Complex.ext <;> simp [orbitQ]

theorem abs_lt_two_iff (x y : ℚ) :
    Complex.abs ⟨(x : ℝ), (y : ℝ)⟩ < 2 ↔ x * x + y * y < 4 := by
  rw [Complex.abs_apply, Complex.normSq_mk, Real.sqrt_lt' (by norm_num : (0 : ℝ) < 2)]
  have h4 : ((2 : ℝ)) ^ 2 = ((4 : ℚ) : ℝ) := by norm_num
  rw [h4]
  exact_mod_cast Iff.rfl

/-- The test of the code agrees with the complex modulus. -/
theorem cabsLt2_ofRat (x y : ℚ) :
    cabsLt2 (Cx.ofRat x y) = true ↔ Complex.abs ⟨(x : ℝ), (y : ℝ)⟩ < 2 := by
  rw [abs_lt_two_iff]
  simp [cabsLt2, Cx.ofRat]

theorem loopCond_stateAfter_ofRat (a b : ℚ) (n : Nat) :
    loopCond (stateAfter (Cx.ofRat a b) n) = true ↔
      Complex.abs (orbit ⟨a, b⟩ n) < 2 ∧ n ≤ MAX_ITER := by
  rw [stateAfter_ofRat, orbit_eq_orbitQ, ← cabsLt2_ofRat]
  simp [loopCond]

/-! ### The value returned -/

/-- The value returned is the number of the first state whose loop condition is false. -/
theorem convergence_exit (c : Cx) :
    loopCond (stateAfter c (convergence c)) = false ∧
      ∀ j, j < convergence c → loopCond (stateAfter c j) = true := by
  have hex := exists_exit c
  have hk : loopCond (stateAfter c (Nat.find hex)) = false := Nat.find_spec hex
  have hlt : ∀ j, j < Nat.find hex → loopCond (stateAfter c j) = true := fun j hj => by
    have := Nat.find_min hex hj
    simpa using this
  rw [convergence_eq_first_exit c (Nat.find hex) hlt hk]
  exact ⟨hk, hlt⟩

theorem convergence_le (c : Cx) : convergence c ≤ MAX_ITER + 1 := by
  by_contra hgt
  have h := (convergence_exit c).2 (MAX_ITER + 1) (by omega)
  rw [loopCond_stateAfter_cap] at h
  exact Bool.false_ne_true h

theorem orbit_zero_abs (c : ℂ) : Complex.abs (orbit c 0) < 2 := by
  simp [orbit]

theorem convergence_pos (a b : ℚ) : 1 ≤ convergence (Cx.ofRat a b) := by
  by_contra hlt
  have h0 : convergence (Cx.ofRat a b) = 0 := by omega
  have h := (convergence_exit (Cx.ofRat a b)).1
  rw [h0] at h
  have h1 := (loopCond_stateAfter_ofRat a b 0).2 ⟨orbit_zero_abs _, Nat.zero_le _⟩
  rw [h] at h1
  exact Bool.false_ne_true h1

/-- A finite point whose orbit stays inside the disc of radius 2 up to index `MAX_ITER`
is given `MAX_ITER + 1`. -/
theorem convergence_of_inside (a b : ℚ)
    (h : ∀ n, n ≤ MAX_ITER → Complex.abs (orbit ⟨a, b⟩ n) < 2) :
    convergence (Cx.ofRat a b) = MAX_ITER + 1 :=
  convergence_eq_first_exit _ _
    (fun j hj => (loopCond_stateAfter_ofRat a b j).2 ⟨h j (by omega), by omega⟩)
    (loopCond_stateAfter_cap _)

theorem orbit_origin (n : Nat) : orbit ⟨((0 : ℚ) : ℝ), ((0 : ℚ) : ℝ)⟩ n = 0 := by
  induction n with
  | zero => rfl
  | succ n ih =>
    rw [orbit, ih]
    apply Complex.ext <;> simp

theorem orbit_neg_one (n : Nat) :
    orbit ⟨((-1 : ℚ) : ℝ), ((0 : ℚ) : ℝ)⟩ n = 0 ∨
      orbit ⟨((-1 : ℚ) : ℝ), ((0 : ℚ) : ℝ)⟩ n = -1 := by
  induction n with
  | zero => exact Or.inl rfl
  | succ n ih =>
    rcases ih with h | h
    · right
      rw [orbit, h]
      apply Complex.ext <;> simp
    · left
      rw [orbit, h]
      apply Complex.ext <;> simp

theorem orbit_origin_inside (n : Nat) :
    Complex.abs (orbit ⟨((0 : ℚ) : ℝ), ((0 : ℚ) : ℝ)⟩ n) < 2 := by
  rw [orbit_origin]; simp

theorem orbit_neg_one_inside (n : Nat) :
    Complex.abs (orbit ⟨((-1 : ℚ) : ℝ), ((0 : ℚ) : ℝ)⟩ n) < 2 := by
  rcases orbit_neg_one n with h | h <;> rw [h] <;> simp

theorem convergence_origin : convergence (Cx.ofRat 0 0) = 81 :=
  convergence_of_inside 0 0 (fun n _ => orbit_origin_inside n)

/-! ### The claims about `convergence` -/

/-- In exact arithmetic, for a finite `c = a + b i`, `convergence` returns the least `n` in
`1..81` with `|z_n| ≥ 2` or `n = 81`, where `z_0 = 0` and `z_{k+1} = z_k * z_k + c` over the
complex numbers; it returns 81 exactly when `|z_n| < 2` for every `n ≤ 80`. -/
theorem convergence_least_exit (a b : ℚ) :
    1 ≤ convergence (Cx.ofRat a b) ∧ convergence (Cx.ofRat a b) ≤ 81 ∧
      (2 ≤ Complex.abs (orbit ⟨a, b⟩ (convergence (Cx.ofRat a b))) ∨
        convergence (Cx.ofRat a b) = 81) ∧
      (∀ m, 1 ≤ m → m < convergence (Cx.ofRat a b) →
        ¬ (2 ≤ Complex.abs (orbit ⟨a, b⟩ m) ∨ m = 81)) ∧
      (convergence (Cx.ofRat a b) = 81 ↔
        ∀ m, m ≤ 80 → Complex.abs (orbit ⟨a, b⟩ m) < 2) := by
  have hle : convergence (Cx.ofRat a b) ≤ 81 := convergence_le _
  have hex := convergence_exit (Cx.ofRat a b)
  have hin : ∀ m, m < convergence (Cx.ofRat a b) → Complex.abs (orbit ⟨a, b⟩ m) < 2 :=
    fun m hm => ((loopCond_stateAfter_ofRat a b m).1 (hex.2 m hm)).1
  refine ⟨convergence_pos a b, hle, ?_, ?_, ?_⟩
  · by_contra hno
    rw [not_or, not_le] at hno
    have hc := (loopCond_stateAfter_ofRat a b _).2 ⟨hno.1, by
      have := hno.2
      change convergence (Cx.ofRat a b) ≤ 80
      omega⟩
    rw [hex.1] at hc
    exact Bool.false_ne_true hc
  · intro m _ hm hor
    rcases hor with h2 | h81
    · exact absurd (hin m hm) (not_lt.2 h2)
    · omega
  · constructor
    · intro h81 m hm
      exact hin m (by omega)
    · intro hall
      exact convergence_of_inside a b hall

/-- C2: for every argument, finite or not, the loop of `convergence` executes its body `k`
times for some `k ≤ MAX_ITER + 1 = 81`: the condition holds in the states after `0, …, k - 1`
executions, fails after `k`, the loop ends in that state, and `k` is the value returned. -/
theorem convergence_terminates (c : Cx) :
    ∃ k, k ≤ MAX_ITER + 1 ∧ k ≤ 81 ∧
      (∀ j, j < k → loopCond ((loopBody c)^[j] initState) = true) ∧
      loopCond ((loopBody c)^[k] initState) = false ∧
      whileLoop c initState = (loopBody c)^[k] initState ∧
      convergence c = k :=
  ⟨convergence c, convergence_le c, convergence_le c, (convergence_exit c).2,
    (convergence_exit c).1,
    whileLoop_eq_first_exit c _ (convergence_exit c).2 (convergence_exit c).1, rfl⟩

/-- C3, as stated, fails: the origin is given 81, which is not in `[0, MAX_ITER]`. -/
theorem convergence_range_counterexample :
    ¬ (0 ≤ convergence (Cx.ofRat 0 0) ∧ convergence (Cx.ofRat 0 0) ≤ MAX_ITER) := by
  rw [convergence_origin]
  decide

/-- C3, amended: for every argument the value returned is a non-negative integer in
`[0, MAX_ITER + 1]`, that is `0 ≤ convergence c ≤ 81`. -/
theorem convergence_range (c : Cx) :
    0 ≤ convergence c ∧ convergence c ≤ MAX_ITER + 1 ∧ MAX_ITER + 1 = 81 :=
  ⟨Nat.zero_le _, convergence_le c, rfl⟩

/-- C4: a finite `c` with `|c| ≥ 2` is given 1: after one execution of the body `z` is `c`
and `iter` is 1, and the condition fails there. -/
theorem convergence_outside (a b : ℚ) (h : 2 ≤ Complex.abs ⟨a, b⟩) :
    convergence (Cx.ofRat a b) = 1 ∧
      loopBody (Cx.ofRat a b) initState = ⟨Cx.ofRat a b, 1⟩ ∧
      loopCond ⟨Cx.ofRat a b, 1⟩ = false := by
  have h1 : stateAfter (Cx.ofRat a b) 1 = ⟨Cx.ofRat a b, 1⟩ := by
    rw [stateAfter_ofRat]; simp [orbitQ]
  have hc : loopCond (stateAfter (Cx.ofRat a b) 1) = false := by
    cases hb : loopCond (stateAfter (Cx.ofRat a b) 1) with
    | false => rfl
    | true =>
      have := ((loopCond_stateAfter_ofRat a b 1).1 hb).1
      rw [orbit, orbit] at this
      simp only [mul_zero, zero_add] at this
      exact absurd this (not_lt.2 h)
  refine ⟨convergence_eq_first_exit _ 1 (fun j hj => ?_) hc, h1, ?_⟩
  · have hj0 : j = 0 := by omega
    rw [hj0]
    exact (loopCond_stateAfter_ofRat a b 0).2 ⟨orbit_zero_abs _, Nat.zero_le _⟩
  · rw [← h1]; exact hc

theorem convergence_outside_witness :
    2 ≤ Complex.abs ⟨((2 : ℚ) : ℝ), ((0 : ℚ) : ℝ)⟩ ∧
      convergence (Cx.ofRat 2 0) = 1 :=
  ⟨by simp [Complex.abs_apply, Complex.normSq_mk],
   (convergence_outside 2 0 (by simp [Complex.abs_apply, Complex.normSq_mk])).1⟩

/-- In exact arithmetic, when `|z_n| < 2` for every `n` in `0..80`, the loop condition holds
in each of the states with `iter = 0, …, MAX_ITER`, so the body executes for each of them,
and `convergence` returns `MAX_ITER + 1 = 81`. -/
theorem convergence_never_escapes (a b : ℚ)
    (h : ∀ n, n ≤ 80 → Complex.abs (orbit ⟨a, b⟩ n) < 2) :
    (∀ j, j ≤ MAX_ITER →
        loopCond (stateAfter (Cx.ofRat a b) j) = true ∧
          (stateAfter (Cx.ofRat a b) j).iter = j) ∧
      convergence (Cx.ofRat a b) = MAX_ITER + 1 ∧ convergence (Cx.ofRat a b) = 81 :=
  ⟨fun j hj => ⟨(loopCond_stateAfter_ofRat a b j).2 ⟨h j hj, hj⟩, stateAfter_iter _ j⟩,
    convergence_of_inside a b h, convergence_of_inside a b h⟩

theorem convergence_never_escapes_witness :
    convergence (Cx.ofRat 0 0) = 81 ∧ convergence (Cx.ofRat (-1) 0) = 81 :=
  ⟨(convergence_never_escapes 0 0 (fun n _ => orbit_origin_inside n)).2.2,
   (convergence_never_escapes (-1) 0 (fun n _ => orbit_neg_one_inside n)).2.2⟩

/-! ### The loops of `main` -/

theorem colLoop_eq (dx : Cx) (Nx : Int) (n : Nat) :
    ∀ (j : Nat) (z : Cx) (fp : File), Nx.toNat - j = n →
      colLoop dx Nx j z fp =
        ((fun w => w + dx)^[n] z, fp ++ (colPoints dx n z).map resultLine) := by
  induction n with
  | zero =>
    intro j z fp h
    rw [colLoop, if_neg (by omega)]
    simp [colPoints]
  | succ n ih =>
    intro j z fp h
    rw [colLoop, if_pos (by omega), ih (j + 1) (z + dx) _ (by omega)]
    simp [colPoints, resultLine]

theorem rowLoop_eq (x0 y0 : Dbl) (dx dy : Cx) (Nx Ny : Int) (m : Nat) :
    ∀ (i : Nat) (fp : File), Ny.toNat - i = m →
      rowLoop x0 y0 dx dy Nx Ny i fp =
        fp ++ (gridPoints x0 y0 dx dy Nx.toNat m i).map resultLine := by
  induction m with
  | zero =>
    intro i fp h
    rw [rowLoop, if_neg (by omega)]
    simp [gridPoints]
  | succ m ih =>
    intro i fp h
    rw [rowLoop, if_pos (by omega), ih (i + 1) _ (by omega),
      colLoop_eq dx Nx Nx.toNat 0 _ fp (by omega)]
    simp [gridPoints]

/-- The file written by `main`: the header, then the count of each point of the grid. -/
theorem mainBody_eq (x0 x1 : ℚ) (Nx : Int) (y0 y1 : ℚ) (Ny : Int) :
    mainBody x0 x1 Nx y0 y1 Ny =
      header x0 x1 Nx y0 y1 Ny ::
        (gridPoints (Dbl.fin x0) (Dbl.fin y0) (stepX x0 x1 Nx) (stepY y0 y1 Ny)
          Nx.toNat Ny.toNat 0).map resultLine := by
  rw [mainBody, rowLoop_eq _ _ _ _ Nx Ny Ny.toNat 0 _ (by omega)]
  rfl

theorem colPoints_length (dx : Cx) (n : Nat) : ∀ z, (colPoints dx n z).length = n := by
  induction n with
  | zero => intro z; rfl
  | succ n ih => intro z; simp [colPoints, ih]

theorem gridPoints_length (x0 y0 : Dbl) (dx dy : Cx) (nx m : Nat) :
    ∀ i, (gridPoints x0 y0 dx dy nx m i).length = m * nx := by
  induction m with
  | zero => intro i; simp [gridPoints]
  | succ m ih => intro i; simp [gridPoints, ih, colPoints_length]; ring

theorem colPoints_getElem? (dx : Cx) (n : Nat) :
    ∀ (z : Cx) (j : Nat), j < n →
      (colPoints dx n z)[j]? = some ((fun w => w + dx)^[j] z) := by
  induction n with
  | zero => intro z j h; omega
  | succ n ih =>
    intro z j h
    cases j with
    | zero => simp [colPoints]
    | succ j =>
      simp only [colPoints, List.getElem?_cons_succ, Function.iterate_succ_apply]
      exact ih _ j (by omega)

theorem gridPoints_getElem? (x0 y0 : Dbl) (dx dy : Cx) (nx m : Nat) :
    ∀ (i r j : Nat), r < m → j < nx →
      (gridPoints x0 y0 dx dy nx m i)[r * nx + j]? =
        some ((fun w => w + dx)^[j] (rowStart x0 y0 dy (i + r))) := by
  induction m with
  | zero => intro i r j h; omega
  | succ m ih =>
    intro i r j hr hj
    cases r with
    | zero =>
      rw [gridPoints, Nat.zero_mul, Nat.zero_add,
        List.getElem?_append_left (by rw [colPoints_length]; exact hj)]
      exact colPoints_getElem? dx nx _ j hj
    | succ r =>
      have hlen := colPoints_length dx nx (rowStart x0 y0 dy i)
      have hidx : (r + 1) * nx + j - nx = r * nx + j := by
        rw [Nat.succ_mul]; omega
      rw [gridPoints, List.getElem?_append_right (by rw [hlen, Nat.succ_mul]; omega), hlen,
        hidx, ih (i + 1) r j (by omega) hj]
      congr 3
      omega

/-! ### Grids with at least two points on each axis: every value is finite -/

theorem stepX_finite (x0 x1 : ℚ) (Nx : Int) (h : Nx ≠ 1) :
    stepX x0 x1 Nx = Cx.ofRat ((x1 - x0) / (Nx - 1)) 0 := by
  have hne : ((Nx - 1 : Int) : ℚ) ≠ 0 := by
    intro h0
    exact h (by have := Int.cast_eq_zero.1 h0; omega)
  have hdiv : Dbl.div (Dbl.fin (x1 - x0)) (Dbl.fin ((Nx - 1 : Int) : ℚ)) =
      Dbl.fin ((x1 - x0) / ((Nx - 1 : Int) : ℚ)) := by
    simp only [Dbl.div, if_neg hne]
  have hcast : ((Nx - 1 : Int) : ℚ) = (Nx : ℚ) - 1 := by push_cast; rfl
  rw [← hcast]
  exact congrArg (fun d => Cx.mk d (Dbl.fin 0)) hdiv

theorem stepY_finite (y0 y1 : ℚ) (Ny : Int) (h : Ny ≠ 1) :
    stepY y0 y1 Ny = Cx.ofRat ((y1 - y0) / (Ny - 1)) 0 :=
  stepX_finite y0 y1 Ny h

theorem fin_add (a b : ℚ) : Dbl.fin a + Dbl.fin b = Dbl.fin (a + b) := rfl

theorem fin_sub (a b : ℚ) : Dbl.fin a - Dbl.fin b = Dbl.fin (a - b) := rfl

theorem fin_mul (a b : ℚ) : Dbl.fin a * Dbl.fin b = Dbl.fin (a * b) := rfl

theorem rowStart_finite (x0 y0 dy : ℚ) (i : Nat) :
    rowStart (Dbl.fin x0) (Dbl.fin y0) (Cx.ofRat dy 0) i = Cx.ofRat x0 (y0 + i * dy) := by
  simp only [rowStart, Cx.realAdd, Cx.realMul, Cx.I, Cx.ofRat, Dbl.ofInt, fin_add, fin_mul]
  change Cx.mk (Dbl.fin _) (Dbl.fin _) = _
  simp

theorem iterate_add_finite (dx : ℚ) (j : Nat) :
    ∀ x y : ℚ, (fun w => w + Cx.ofRat dx 0)^[j] (Cx.ofRat x y) =
      Cx.ofRat ((fun t => t + dx)^[j] x) y := by
  induction j with
  | zero => intro x y; rfl
  | succ j ih =>
    intro x y
    rw [Function.iterate_succ_apply, Function.iterate_succ_apply, ← ih]
    congr 1
    change Cx.mk (Dbl.fin (x + dx)) (Dbl.fin (y + 0)) = _
    rw [add_zero]; rfl

theorem iterate_add_eq (dx : ℚ) (j : Nat) :
    ∀ x : ℚ, (fun t => t + dx)^[j] x = x + j * dx := by
  induction j with
  | zero => intro x; simp
  | succ j ih =>
    intro x
    rw [Function.iterate_succ_apply, ih]
    push_cast
    ring

/-! ### Decimal digits -/

theorem digitChar_isDigit (d : Nat) : (digitChar d).isDigit = true := by
  have h : d % 10 < 10 := Nat.mod_lt _ (by decide)
  rw [digitChar]
  generalize d % 10 = k at h
  interval_cases k <;> decide

theorem digitVal_digitChar (d : Nat) : digitVal (digitChar d) = d % 10 := by
  have h : d % 10 < 10 := Nat.mod_lt _ (by decide)
  rw [digitChar]
  generalize d % 10 = k at h
  interval_cases k <;> decide

theorem natDigits_append (fuel : Nat) :
    ∀ (n : Nat) (ds : List Char), natDigits fuel n ds = natDigits fuel n [] ++ ds := by
  induction fuel with
  | zero => intro n ds; rfl
  | succ fuel ih =>
    intro n ds
    simp only [natDigits]
    split
    · rfl
    · rw [ih (n / 10) (digitChar n :: ds), ih (n / 10) [digitChar n]]
      simp

theorem natDigits_isDigit (fuel : Nat) :
    ∀ (n : Nat) (ch : Char), ch ∈ natDigits fuel n [] → ch.isDigit = true := by
  induction fuel with
  | zero => intro n ch h; simp [natDigits] at h
  | succ fuel ih =>
    intro n ch h
    simp only [natDigits] at h
    split at h
    · rw [List.mem_singleton] at h
      rw [h]; exact digitChar_isDigit n
    · rw [natDigits_append, List.mem_append, List.mem_singleton] at h
      rcases h with h | h
      · exact ih _ _ h
      · rw [h]; exact digitChar_isDigit n

theorem natDigits_ne_nil (fuel n : Nat) : natDigits (fuel + 1) n [] ≠ [] := by
  simp only [natDigits]
  split
  · simp
  · rw [natDigits_append]; simp

/-- A line holding a count: decimal digits only, at least one. -/
theorem fmtInt_natCast (n : Nat) :
    (fmtInt (n : Int)).toList ≠ [] ∧
      ∀ ch ∈ (fmtInt (n : Int)).toList, ch.isDigit = true := by
  have hneg : ¬ ((n : Int) < 0) := by omega
  simp only [fmtInt, if_neg hneg, List.nil_append, Int.natAbs_ofNat]
  exact ⟨natDigits_ne_nil _ _, natDigits_isDigit _ _⟩

/-! ### The claims about the grid -/

/-- C6: for `Nx ≥ 2` and `Ny ≥ 2` the file written by `main` has exactly `1 + Nx * Ny`
lines: the header, then `Nx * Ny` lines each holding one non-negative decimal integer (digits
only, at least one). -/
theorem mainBody_line_count (x0 x1 : ℚ) (Nx : Int) (y0 y1 : ℚ) (Ny : Int)
    (hx : 2 ≤ Nx) (hy : 2 ≤ Ny) :
    ((mainBody x0 x1 Nx y0 y1 Ny).length : Int) = 1 + Nx * Ny ∧
      (mainBody x0 x1 Nx y0 y1 Ny).head? = some (header x0 x1 Nx y0 y1 Ny) ∧
      (((mainBody x0 x1 Nx y0 y1 Ny).tail).length : Int) = Nx * Ny ∧
      ∀ l ∈ (mainBody x0 x1 Nx y0 y1 Ny).tail,
        ∃ n : Nat, l = fmtInt (n : Int) ∧ l.toList ≠ [] ∧
          ∀ ch ∈ l.toList, ch.isDigit = true := by
  rw [mainBody_eq]
  have hlen : ((Ny.toNat * Nx.toNat : Nat) : Int) = Nx * Ny := by
    push_cast
    rw [Int.toNat_of_nonneg (by omega), Int.toNat_of_nonneg (by omega)]
    ring
  refine ⟨?_, rfl, ?_, ?_⟩
  · simp only [List.length_cons, List.length_map, gridPoints_length]
    push_cast at hlen ⊢
    rw [hlen]; ring
  · simp only [List.tail_cons, List.length_map, gridPoints_length]
    exact hlen
  · intro l hl
    simp only [List.tail_cons, List.mem_map] at hl
    obtain ⟨z, _, rfl⟩ := hl
    exact ⟨convergence z, rfl, fmtInt_natCast _⟩

theorem mainBody_line_count_witness :
    ((mainBody (-2) 1 3 (-1) 1 3).length : Int) = 1 + 3 * 3 :=
  (mainBody_line_count (-2) 1 3 (-1) 1 3 (by decide) (by decide)).1

/-- In exact arithmetic, for `Nx, Ny ≥ 2`, row `i` and column `j`, result line `i * Nx + j`
(after the header) is the count of the point whose imaginary part is `y0 + i * dy` and whose
real part is `x0` with `dx` added `j` times, where `dx = (x1 - x0)/(Nx - 1)` and
`dy = (y1 - y0)/(Ny - 1)`. -/
theorem mainBody_row_major (x0 x1 : ℚ) (Nx : Int) (y0 y1 : ℚ) (Ny : Int)
    (hx : 2 ≤ Nx) (hy : 2 ≤ Ny) (i j : Nat) (hi : (i : Int) < Ny) (hj : (j : Int) < Nx) :
    (mainBody x0 x1 Nx y0 y1 Ny)[1 + (i * Nx.toNat + j)]? =
      some (fmtInt (convergence
        (Cx.ofRat ((fun x => x + (x1 - x0) / (Nx - 1))^[j] x0)
          (y0 + i * ((y1 - y0) / (Ny - 1)))))) := by
  rw [mainBody_eq, Nat.add_comm 1, List.getElem?_cons_succ, List.getElem?_map,
    gridPoints_getElem? _ _ _ _ _ _ 0 i j (by omega) (by omega),
    stepX_finite _ _ _ (by omega), stepY_finite _ _ _ (by omega), Nat.zero_add,
    rowStart_finite, iterate_add_finite]
  rfl

theorem mainBody_row_major_witness :
    (mainBody (-2) 2 3 (-2) 2 3)[1 + (1 * (3 : Int).toNat + 2)]? =
      some (fmtInt (convergence
        (Cx.ofRat ((fun x => x + (2 - (-2)) / (((3 : Int) : ℚ) - 1))^[2] (-2))
          (-2 + ((1 : Nat) : ℚ) * ((2 - (-2)) / (((3 : Int) : ℚ) - 1)))))) :=
  mainBody_row_major (-2) 2 3 (-2) 2 3 (by decide) (by decide) 1 2 (by decide) (by decide)

/-- C8: in exact arithmetic, for `Nx, Ny ≥ 2`, the file is the header followed by the counts
of the points of the grid; the point of row `i` and column `j` is
`(x0 + j * dx) + (y0 + i * dy) i` with `dx = (x1 - x0)/(Nx - 1)`, `dy = (y1 - y0)/(Ny - 1)`
(the accumulated real part equals `x0 + j * dx`); the first point is `x0 + y0 i` and the last
one, of row `Ny - 1` and column `Nx - 1`, is `x1 + y1 i`. -/
theorem grid_evenly_spaced (x0 x1 : ℚ) (Nx : Int) (y0 y1 : ℚ) (Ny : Int)
    (hx : 2 ≤ Nx) (hy : 2 ≤ Ny) :
    mainBody x0 x1 Nx y0 y1 Ny =
        header x0 x1 Nx y0 y1 Ny ::
          (gridPoints (Dbl.fin x0) (Dbl.fin y0) (stepX x0 x1 Nx) (stepY y0 y1 Ny)
            Nx.toNat Ny.toNat 0).map (fun z => fmtInt (convergence z)) ∧
      (∀ i j : Nat, (i : Int) < Ny → (j : Int) < Nx →
        (fun x => x + (x1 - x0) / (Nx - 1))^[j] x0 = x0 + j * ((x1 - x0) / (Nx - 1)) ∧
        (gridPoints (Dbl.fin x0) (Dbl.fin y0) (stepX x0 x1 Nx) (stepY y0 y1 Ny)
            Nx.toNat Ny.toNat 0)[i * Nx.toNat + j]? =
          some (Cx.ofRat (x0 + j * ((x1 - x0) / (Nx - 1))) (y0 + i * ((y1 - y0) / (Ny - 1))))) ∧
      (gridPoints (Dbl.fin x0) (Dbl.fin y0) (stepX x0 x1 Nx) (stepY y0 y1 Ny)
          Nx.toNat Ny.toNat 0)[0]? = some (Cx.ofRat x0 y0) ∧
      (gridPoints (Dbl.fin x0) (Dbl.fin y0) (stepX x0 x1 Nx) (stepY y0 y1 Ny)
          Nx.toNat Ny.toNat 0)[(Ny.toNat - 1) * Nx.toNat + (Nx.toNat - 1)]? =
        some (Cx.ofRat x1 y1) := by
  have hpt : ∀ i j : Nat, (i : Int) < Ny → (j : Int) < Nx →
      (gridPoints (Dbl.fin x0) (Dbl.fin y0) (stepX x0 x1 Nx) (stepY y0 y1 Ny)
          Nx.toNat Ny.toNat 0)[i * Nx.toNat + j]? =
        some (Cx.ofRat (x0 + j * ((x1 - x0) / (Nx - 1))) (y0 + i * ((y1 - y0) / (Ny - 1)))) := by
    intro i j hi hj
    rw [gridPoints_getElem? _ _ _ _ _ _ 0 i j (by omega) (by omega),
      stepX_finite _ _ _ (by omega), stepY_finite _ _ _ (by omega), Nat.zero_add,
      rowStart_finite, iterate_add_finite, iterate_add_eq]
  refine ⟨mainBody_eq x0 x1 Nx y0 y1 Ny,
    fun i j hi hj => ⟨iterate_add_eq _ j x0, hpt i j hi hj⟩, ?_, ?_⟩
  · have h := hpt 0 0 (by omega) (by omega)
    simpa using h
  · have h := hpt (Ny.toNat - 1) (Nx.toNat - 1) (by omega) (by omega)
    rw [h]
    have hnx : ((Nx.toNat - 1 : Nat) : ℚ) = (Nx : ℚ) - 1 := by
      have h1 : ((Nx.toNat - 1 : Nat) : Int) = Nx - 1 := by omega
      have h2 := congrArg (fun t : Int => (t : ℚ)) h1
      simpa using h2
    have hny : ((Ny.toNat - 1 : Nat) : ℚ) = (Ny : ℚ) - 1 := by
      have h1 : ((Ny.toNat - 1 : Nat) : Int) = Ny - 1 := by omega
      have h2 := congrArg (fun t : Int => (t : ℚ)) h1
      simpa using h2
    have hx0 : (Nx : ℚ) - 1 ≠ 0 := by
      have : (2 : ℚ) ≤ (Nx : ℚ) := by exact_mod_cast hx
      intro h0; linarith
    have hy0 : (Ny : ℚ) - 1 ≠ 0 := by
      have : (2 : ℚ) ≤ (Ny : ℚ) := by exact_mod_cast hy
      intro h0; linarith
    rw [hnx, hny]
    congr 2
    · field_simp
    · field_simp

theorem grid_evenly_spaced_witness :
    (gridPoints (Dbl.fin (-2)) (Dbl.fin (-1)) (stepX (-2) 1 3) (stepY (-1) 1 3)
        (3 : Int).toNat (3 : Int).toNat 0)[((3 : Int).toNat - 1) * (3 : Int).toNat +
          ((3 : Int).toNat - 1)]? = some (Cx.ofRat 1 1) :=
  (grid_evenly_spaced (-2) 1 3 (-1) 1 3 (by decide) (by decide)).2.2.2

/-! ### The header -/

theorem digitsValue_append_singleton (cs : List Char) (ch : Char) :
    digitsValue (cs ++ [ch]) = 10 * digitsValue cs + digitVal ch := by
  simp [digitsValue, List.foldl_append]

theorem digitsValue_natDigits (fuel : Nat) :
    ∀ n : Nat, n < fuel → digitsValue (natDigits fuel n []) = n := by
  induction fuel with
  | zero => intro n h; omega
  | succ fuel ih =>
    intro n h
    simp only [natDigits]
    split
    · rename_i h0
      have := digitsValue_append_singleton [] (digitChar n)
      simp only [List.nil_append] at this
      rw [this, digitVal_digitChar]
      simp only [digitsValue, List.foldl_nil]
      omega
    · rename_i h0
      rw [natDigits_append, digitsValue_append_singleton, digitVal_digitChar,
        ih (n / 10) (by omega)]
      omega

theorem digitsValue_sixDigits (m : Nat) (h : m < 1000000) : digitsValue (sixDigits m) = m := by
  simp only [sixDigits, digitsValue, List.foldl_cons, List.foldl_nil, digitVal_digitChar]
  omega

theorem sixDigits_isDigit (m : Nat) : ∀ ch ∈ sixDigits m, ch.isDigit = true := by
  intro ch h
  simp only [sixDigits, List.mem_cons, List.mem_singleton, List.not_mem_nil, or_false] at h
  rcases h with h | h | h | h | h | h <;> rw [h] <;> exact digitChar_isDigit _

theorem roundHalfEven_near (r : ℚ) (h : 0 ≤ r) : |(roundHalfEven r : ℚ) - r| ≤ 1 / 2 := by
  have h1 : ((⌊r⌋₊ : Nat) : ℚ) ≤ r := Nat.floor_le h
  have h2 : r < ((⌊r⌋₊ : Nat) : ℚ) + 1 := Nat.lt_floor_add_one r
  simp only [roundHalfEven]
  split_ifs with ha hb hc
  · rw [abs_le]; constructor <;> linarith
  · rw [abs_le]; push_cast; constructor <;> linarith
  · rw [abs_le]; constructor <;> linarith
  · rw [abs_le]; push_cast; constructor <;> linarith

theorem fmtFixed_isFixedSix (q : ℚ) : IsFixedSix q (fmtFixed q) := by
  have hm := roundHalfEven_near (|q| * 1000000) (by positivity)
  generalize hmdef : roundHalfEven (|q| * 1000000) = m at hm
  refine ⟨natDigits (m / 1000000 + 1) (m / 1000000) [], sixDigits (m % 1000000), ?_,
    natDigits_ne_nil _ _, natDigits_isDigit _ _, rfl, sixDigits_isDigit _, ?_⟩
  · simp only [fmtFixed, hmdef]
    rfl
  · rw [digitsValue_natDigits _ _ (Nat.lt_succ_self _),
      digitsValue_sixDigits _ (Nat.mod_lt _ (by decide))]
    have hsplit : ((m / 1000000 : Nat) : ℚ) + ((m % 1000000 : Nat) : ℚ) / 1000000 =
        (m : ℚ) / 1000000 := by
      have := Nat.div_add_mod m 1000000
      have hq : (m : ℚ) =
          1000000 * ((m / 1000000 : Nat) : ℚ) + ((m % 1000000 : Nat) : ℚ) := by
        exact_mod_cast this.symm
      rw [hq]; field_simp; ring
    rw [hsplit]
    have : (m : ℚ) / 1000000 - |q| = ((m : ℚ) - |q| * 1000000) / 1000000 := by
      field_simp; ring
    rw [this, abs_div, abs_of_pos (by norm_num : (0 : ℚ) < 1000000), div_le_iff₀ (by norm_num)]
    calc |(m : ℚ) - |q| * 1000000| ≤ 1 / 2 := hm
      _ = 1 / 2000000 * 1000000 := by norm_num

theorem fmtInt_isPlainDecimal (n : Int) : IsPlainDecimal n (fmtInt n) :=
  ⟨natDigits (n.natAbs + 1) n.natAbs [], rfl, natDigits_ne_nil _ _, natDigits_isDigit _ _,
    digitsValue_natDigits _ _ (Nat.lt_succ_self _)⟩

theorem header_example :
    header (-2) 1 3 (-1) 1 3 = "-2.000000 1.000000 3 -1.000000 1.000000 3" := by
  have h2 : roundHalfEven (|(-2 : ℚ)| * 1000000) = 2000000 := by norm_num [roundHalfEven]
  have h1 : roundHalfEven (|(1 : ℚ)| * 1000000) = 1000000 := by norm_num [roundHalfEven]
  have h1n : roundHalfEven (|(-1 : ℚ)| * 1000000) = 1000000 := by norm_num [roundHalfEven]
  have f2 : fmtFixed (-2) = "-2.000000" := by simp only [fmtFixed, h2]; decide
  have f1 : fmtFixed 1 = "1.000000" := by simp only [fmtFixed, h1]; decide
  have f1n : fmtFixed (-1) = "-1.000000" := by simp only [fmtFixed, h1n]; decide
  rw [header, f2, f1, f1n]
  decide

theorem main_example_args :
    main ["mandelbrot", "-2", "1", "3", "-1", "1", "3", "out.txt"] =
      some (mainBody (-2) 1 3 (-1) 1 3) := by
  have a1 : atoi "-2" = some (-2) := by decide
  have a3 : atoi "3" = some 3 := by decide
  have a2 : atof "1" = 1 := by
    simp [atof, skipSpace, isSpace, readSign, readDigits, readFraction, readExponent, digitVal]
  have a4 : atof "-1" = -1 := by
    simp [atof, skipSpace, isSpace, readSign, readDigits, readFraction, readExponent, digitVal]
  simp only [main, a1, a2, a3, a4]
  norm_num

/-- In exact arithmetic, for finite bounds, the first line of the file is the header, made of
the six parameters in the order `x0 x1 Nx y0 y1 Ny` with one space between them, the four
bounds in fixed notation with six digits after the point and the two counts in plain decimal;
for the arguments `-2 1 3 -1 1 3` the header is `-2.000000 1.000000 3 -1.000000 1.000000 3`
and nine result lines follow it. -/
theorem header_format :
    (∀ (x0 x1 : ℚ) (Nx : Int) (y0 y1 : ℚ) (Ny : Int),
      ∃ f0 f1 n2 f3 f4 n5 : String,
        (mainBody x0 x1 Nx y0 y1 Ny).head? =
          some (f0 ++ " " ++ f1 ++ " " ++ n2 ++ " " ++ f3 ++ " " ++ f4 ++ " " ++ n5) ∧
        IsFixedSix x0 f0 ∧ IsFixedSix x1 f1 ∧ IsPlainDecimal Nx n2 ∧
        IsFixedSix y0 f3 ∧ IsFixedSix y1 f4 ∧ IsPlainDecimal Ny n5) ∧
    ∃ out : File,
      main ["mandelbrot", "-2", "1", "3", "-1", "1", "3", "out.txt"] = some out ∧
      out.head? = some "-2.000000 1.000000 3 -1.000000 1.000000 3" ∧
      out.tail.length = 9 := by
  constructor
  · intro x0 x1 Nx y0 y1 Ny
    refine ⟨fmtFixed x0, fmtFixed x1, fmtInt Nx, fmtFixed y0, fmtFixed y1, fmtInt Ny, ?_,
      fmtFixed_isFixedSix _, fmtFixed_isFixedSix _, fmtInt_isPlainDecimal _,
      fmtFixed_isFixedSix _, fmtFixed_isFixedSix _, fmtInt_isPlainDecimal _⟩
    rw [mainBody_eq]
    rfl
  · refine ⟨_, main_example_args, ?_, ?_⟩
    · rw [mainBody_eq, ← header_example]
      rfl
    · rw [mainBody_eq]
      simp only [List.tail_cons, List.length_map, gridPoints_length]
      decide

/-! ### Parsing decimal arguments -/

theorem loopCond_initState : loopCond initState = true := by
  simp [loopCond, initState, cabsLt2, Cx.ofReal, MAX_ITER]

/-- The body runs at least once, whatever the argument. -/
theorem convergence_ne_zero (c : Cx) : convergence c ≠ 0 := by
  intro h0
  have h := (convergence_exit c).1
  rw [h0] at h
  have h1 : stateAfter c 0 = initState := rfl
  rw [h1, loopCond_initState] at h
  exact Bool.noConfusion h

theorem digitsValue_fmtInt_natCast (n : Nat) : digitsValue (fmtInt (n : Int)).toList = n := by
  have hneg : ¬ ((n : Int) < 0) := by omega
  simp only [fmtInt, if_neg hneg, List.nil_append, Int.natAbs_ofNat]
  exact digitsValue_natDigits _ _ (Nat.lt_succ_self _)

theorem resultLine_ne_zero (z : Cx) : resultLine z ≠ "0" := by
  intro h
  have hv := digitsValue_fmtInt_natCast (convergence z)
  rw [resultLine] at h
  rw [h] at hv
  exact convergence_ne_zero z hv.symm

/-- C15: for every finite `c` (and for a non-finite one as well) the loop condition holds on
entry, since `z` starts at 0 and `0 ≤ MAX_ITER`, so the body executes at least once and
`convergence c ≥ 1`; the value 0 is never returned, and no result line of the file is `0`. -/
theorem convergence_at_least_one :
    loopCond initState = true ∧
      (∀ a b : ℚ, 1 ≤ convergence (Cx.ofRat a b)) ∧
      (∀ c : Cx, 1 ≤ convergence c ∧ convergence c ≠ 0) ∧
      ∀ (x0 x1 : ℚ) (Nx : Int) (y0 y1 : ℚ) (Ny : Int),
        ∀ l ∈ (mainBody x0 x1 Nx y0 y1 Ny).tail, l ≠ "0" := by
  refine ⟨loopCond_initState, fun a b => Nat.one_le_iff_ne_zero.2 (convergence_ne_zero _),
    fun c => ⟨Nat.one_le_iff_ne_zero.2 (convergence_ne_zero c), convergence_ne_zero c⟩, ?_⟩
  intro x0 x1 Nx y0 y1 Ny l hl
  rw [mainBody_eq] at hl
  simp only [List.tail_cons, List.mem_map] at hl
  obtain ⟨z, _, rfl⟩ := hl
  exact resultLine_ne_zero z

theorem orbit_abs_le_half (c : ℂ) (h : Complex.abs c ≤ 1 / 4) :
    ∀ n, Complex.abs (orbit c n) ≤ 1 / 2 := by
  intro n
  induction n with
  | zero => simp [orbit]
  | succ n ih =>
    have h0 : 0 ≤ Complex.abs (orbit c n) := Complex.abs.nonneg _
    calc Complex.abs (orbit c (n + 1))
        = Complex.abs (orbit c n * orbit c n + c) := rfl
      _ ≤ Complex.abs (orbit c n * orbit c n) + Complex.abs c := Complex.abs.add_le _ _
      _ = Complex.abs (orbit c n) * Complex.abs (orbit c n) + Complex.abs c := by
          rw [map_mul]
      _ ≤ 1 / 2 * (1 / 2) + 1 / 4 := by
          have := mul_le_mul ih ih h0 (by norm_num : (0 : ℝ) ≤ 1 / 2)
          linarith
      _ = 1 / 2 := by norm_num

/-- C17: for a finite `c` with `|c| ≤ 1/4` every point of the orbit has `|z_n| ≤ 1/2`, so the
orbit never leaves the disc of radius 2 and `convergence c = MAX_ITER + 1 = 81`. -/
theorem convergence_small_disc (a b : ℚ) (h : Complex.abs ⟨a, b⟩ ≤ 1 / 4) :
    (∀ n, Complex.abs (orbit ⟨a, b⟩ n) ≤ 1 / 2) ∧
      convergence (Cx.ofRat a b) = MAX_ITER + 1 ∧ convergence (Cx.ofRat a b) = 81 := by
  have hb := orbit_abs_le_half ⟨a, b⟩ h
  have hc := convergence_of_inside a b (fun n _ => lt_of_le_of_lt (hb n) (by norm_num))
  exact ⟨hb, hc, hc⟩

theorem convergence_small_disc_witness :
    Complex.abs ⟨((1 / 4 : ℚ) : ℝ), ((0 : ℚ) : ℝ)⟩ ≤ 1 / 4 ∧
      convergence (Cx.ofRat (1 / 4) 0) = 81 := by
  have hq : Complex.abs ⟨((1 / 4 : ℚ) : ℝ), ((0 : ℚ) : ℝ)⟩ ≤ 1 / 4 := by
    have h1 : (⟨((1 / 4 : ℚ) : ℝ), ((0 : ℚ) : ℝ)⟩ : ℂ) = ((1 / 4 : ℝ) : ℂ) := by
      apply Complex.ext <;> simp
    rw [h1, Complex.abs_ofReal, abs_of_pos (by norm_num)]
  exact ⟨hq, (convergence_small_disc (1 / 4) 0 hq).2.2⟩

/-! ### The steps and their divisors -/

theorem ofInt_pred_eq_zero_iff (N : Int) : Dbl.ofInt (N - 1) = Dbl.fin 0 ↔ N = 1 := by
  constructor
  · intro h
    have h1 : ((N - 1 : Int) : ℚ) = 0 := Dbl.fin.inj h
    have h2 : N - 1 = 0 := Int.cast_eq_zero.1 h1
    omega
  · intro h
    rw [h]
    simp [Dbl.ofInt]

theorem stepX_degenerate (x0 x1 : ℚ) : stepX x0 x1 1 = ⟨Dbl.nonfinite, Dbl.fin 0⟩ := by
  have h0 : Dbl.ofInt (1 - 1) = Dbl.fin 0 := (ofInt_pred_eq_zero_iff 1).2 rfl
  have hdiv : Dbl.div (Dbl.fin (x1 - x0)) (Dbl.fin 0) = Dbl.nonfinite := by
    simp [Dbl.div]
  rw [stepX, h0]
  exact congrArg (fun d => Cx.mk d (Dbl.fin 0)) hdiv

theorem stepX_nonfinite_iff (x0 x1 : ℚ) (N : Int) :
    (stepX x0 x1 N).re = Dbl.nonfinite ↔ N = 1 := by
  constructor
  · intro h
    by_contra hne
    rw [stepX_finite x0 x1 N hne] at h
    exact Dbl.noConfusion h
  · intro h
    rw [h, stepX_degenerate]

/-- C14: the divisor `Nx - 1` of `dx` is zero exactly when `Nx = 1`, and `dx` is then not a
finite number; likewise for `Ny` and `dy`.  For `Nx ≥ 2` and `Ny ≥ 2` both divisors are
non-zero and both steps are the finite quotients. -/
theorem step_defined_iff (x0 x1 y0 y1 : ℚ) (Nx Ny : Int) :
    stepX x0 x1 Nx = Cx.ofReal ((Dbl.fin x1 - Dbl.fin x0) / Dbl.ofInt (Nx - 1)) ∧
      stepY y0 y1 Ny = Cx.ofReal ((Dbl.fin y1 - Dbl.fin y0) / Dbl.ofInt (Ny - 1)) ∧
      (Dbl.ofInt (Nx - 1) = Dbl.fin 0 ↔ Nx = 1) ∧
      (Dbl.ofInt (Ny - 1) = Dbl.fin 0 ↔ Ny = 1) ∧
      ((stepX x0 x1 Nx).re = Dbl.nonfinite ↔ Nx = 1) ∧
      ((stepY y0 y1 Ny).re = Dbl.nonfinite ↔ Ny = 1) ∧
      (2 ≤ Nx → 2 ≤ Ny →
        Dbl.ofInt (Nx - 1) ≠ Dbl.fin 0 ∧ Dbl.ofInt (Ny - 1) ≠ Dbl.fin 0 ∧
        stepX x0 x1 Nx = Cx.ofRat ((x1 - x0) / (Nx - 1)) 0 ∧
        stepY y0 y1 Ny = Cx.ofRat ((y1 - y0) / (Ny - 1)) 0) := by
  refine ⟨rfl, rfl, ofInt_pred_eq_zero_iff Nx, ofInt_pred_eq_zero_iff Ny,
    stepX_nonfinite_iff x0 x1 Nx, stepX_nonfinite_iff y0 y1 Ny, fun hx hy => ⟨?_, ?_, ?_, ?_⟩⟩
  · intro h
    have := (ofInt_pred_eq_zero_iff Nx).1 h
    omega
  · intro h
    have := (ofInt_pred_eq_zero_iff Ny).1 h
    omega
  · exact stepX_finite x0 x1 Nx (by omega)
  · exact stepY_finite y0 y1 Ny (by omega)

theorem step_defined_iff_witness :
    Dbl.ofInt ((3 : Int) - 1) ≠ Dbl.fin 0 ∧ Dbl.ofInt ((1 : Int) - 1) = Dbl.fin 0 ∧
      (stepX (-2) 1 1).re = Dbl.nonfinite :=
  ⟨((step_defined_iff (-2) 1 (-1) 1 3 3).2.2.2.2.2.2 (by decide) (by decide)).1,
    ((step_defined_iff (-2) 1 (-1) 1 1 3).2.2.1).2 rfl,
    ((step_defined_iff (-2) 1 (-1) 1 1 3).2.2.2.2.1).2 rfl⟩

/-! ### Conjugation -/

theorem cabsLt2_conj (z : Cx) : cabsLt2 (Cx.conj z) = cabsLt2 z := by
  obtain ⟨zr, zi⟩ := z
  cases zr <;> cases zi <;> simp [Cx.conj, Dbl.neg, cabsLt2]

theorem dbl_neg_mul_neg (x y : Dbl) : Dbl.neg x * Dbl.neg y = x * y := by
  cases x <;> cases y <;> try rfl
  exact congrArg Dbl.fin (neg_mul_neg _ _)

theorem dbl_mul_neg (x y : Dbl) : x * Dbl.neg y = Dbl.neg (x * y) := by
  cases x <;> cases y <;> try rfl
  exact congrArg Dbl.fin (mul_neg _ _)

theorem dbl_neg_mul (x y : Dbl) : Dbl.neg x * y = Dbl.neg (x * y) := by
  cases x <;> cases y <;> try rfl
  exact congrArg Dbl.fin (neg_mul _ _)

theorem dbl_neg_add_neg (x y : Dbl) : Dbl.neg x + Dbl.neg y = Dbl.neg (x + y) := by
  cases x <;> cases y <;> try rfl
  exact congrArg Dbl.fin (neg_add _ _).symm

theorem conj_step (z c : Cx) : Cx.conj (z * z + c) = Cx.conj z * Cx.conj z + Cx.conj c := by
  change Cx.mk (z.re * z.re - z.im * z.im + c.re) (Dbl.neg (z.re * z.im + z.im * z.re + c.im)) =
    Cx.mk (z.re * z.re - Dbl.neg z.im * Dbl.neg z.im + c.re)
      (z.re * Dbl.neg z.im + Dbl.neg z.im * z.re + Dbl.neg c.im)
  rw [dbl_neg_mul_neg, dbl_mul_neg, dbl_neg_mul, dbl_neg_add_neg, dbl_neg_add_neg]

theorem conj_initState : Cx.conj initState.z = initState.z := by
  simp [initState, Cx.ofReal, Cx.conj, Dbl.neg]

theorem stateAfter_conj (c : Cx) (n : Nat) :
    stateAfter (Cx.conj c) n = ⟨Cx.conj (stateAfter c n).z, (stateAfter c n).iter⟩ := by
  induction n with
  | zero =>
    change initState = ⟨Cx.conj initState.z, initState.iter⟩
    rw [conj_initState]
  | succ n ih =>
    have hs : ∀ d, stateAfter d (n + 1) = loopBody d (stateAfter d n) := fun d => by
      rw [stateAfter, Function.iterate_succ_apply']; rfl
    rw [hs, hs, ih]
    simp only [loopBody, conj_step]

theorem loopCond_stateAfter_conj (c : Cx) (n : Nat) :
    loopCond (stateAfter (Cx.conj c) n) = loopCond (stateAfter c n) := by
  rw [stateAfter_conj]
  simp only [loopCond, cabsLt2_conj]

/-- C16: `convergence` gives a point and its conjugate the same count: after any number of body
executions the value of `z` for `conj c` is the conjugate of the one for `c`, and the test
`cabs(z) < 2` does not tell a value from its conjugate (the two have the same modulus). -/
theorem convergence_conj (c : Cx) :
    convergence (Cx.conj c) = convergence c ∧
      (∀ n, (stateAfter (Cx.conj c) n).z = Cx.conj (stateAfter c n).z) ∧
      (∀ z, cabsLt2 (Cx.conj z) = cabsLt2 z) ∧
      (∀ a b : ℚ, Cx.conj (Cx.ofRat a b) = Cx.ofRat a (-b) ∧
        Complex.abs ⟨(a : ℝ), ((-b : ℚ) : ℝ)⟩ =
          Complex.abs ⟨(a : ℝ), (b : ℝ)⟩) := by
  refine ⟨?_, fun n => by rw [stateAfter_conj], cabsLt2_conj, fun a b => ⟨rfl, ?_⟩⟩
  · apply convergence_eq_first_exit
    · intro j hj
      rw [loopCond_stateAfter_conj]
      exact (convergence_exit c).2 j hj
    · rw [loopCond_stateAfter_conj]
      exact (convergence_exit c).1
  · rw [Complex.abs_apply, Complex.abs_apply, Complex.normSq_mk, Complex.normSq_mk]
    push_cast
    ring_nf

/-! ### The squared-magnitude variant -/

theorem squaredLt4_eq_cabsLt2 (z : Cx) : squaredLt4 z = cabsLt2 z := by
  obtain ⟨zr, zi⟩ := z
  cases zr <;> cases zi <;> simp [squaredLt4, cabsLt2, sq]

theorem modulusLt2_iff_cabsLt2 (z : Cx) : modulusLt2 z ↔ cabsLt2 z = true := by
  obtain ⟨zr, zi⟩ := z
  cases zr <;> cases zi <;> simp only [modulusLt2, cabsLt2, Bool.false_eq_true]
  rename_i a b
  rw [Real.sqrt_lt' (by norm_num : (0 : ℝ) < 2), decide_eq_true_eq]
  have h4 : ((2 : ℝ)) ^ 2 = ((4 : ℚ) : ℝ) := by norm_num
  have hs : (a : ℝ) ^ 2 + (b : ℝ) ^ 2 = ((a * a + b * b : ℚ) : ℝ) := by push_cast; ring
  rw [h4, hs]
  exact_mod_cast Iff.rfl

theorem modulus_test_iff_loopCond (s : LoopState) :
    (modulusLt2 s.z ∧ s.iter ≤ MAX_ITER) ↔ loopCond s = true := by
  rw [modulusLt2_iff_cabsLt2]
  simp [loopCond]

theorem squaredLoop_eq_whileLoop (c : Cx) (m : Nat) :
    ∀ s : LoopState, MAX_ITER + 1 - s.iter = m → squaredLoop c s = whileLoop c s := by
  induction m with
  | zero =>
    intro s hm
    have hc : loopCond s = false := by
      cases h : loopCond s with
      | false => rfl
      | true => have := loopCond_iter_le h; omega
    have hq : (squaredLt4 s.z && decide (s.iter ≤ MAX_ITER)) = false := by
      rw [squaredLt4_eq_cabsLt2]; exact hc
    rw [squaredLoop, if_neg (by simp [hq]), whileLoop_of_not_cond hc]
  | succ m ih =>
    intro s hm
    cases hc : loopCond s with
    | false =>
      have hq : (squaredLt4 s.z && decide (s.iter ≤ MAX_ITER)) = false := by
        rw [squaredLt4_eq_cabsLt2]; exact hc
      rw [squaredLoop, if_neg (by simp [hq]), whileLoop_of_not_cond hc]
    | true =>
      have hq : (squaredLt4 s.z && decide (s.iter ≤ MAX_ITER)) = true := by
        rw [squaredLt4_eq_cabsLt2]; exact hc
      rw [squaredLoop, if_pos hq, whileLoop_of_cond hc]
      exact ih _ (by simp only [loopBody]; omega)

theorem convergenceSquared_eq (c : Cx) : convergenceSquared c = convergence c := by
  rw [convergenceSquared, convergence, squaredLoop_eq_whileLoop c _ initState rfl]

theorem modulusEval_unique (c : Cx) (s : LoopState) (n : Nat) (h : ModulusEval c s n) :
    n = (whileLoop c s).iter := by
  induction h with
  | done s hno =>
    have hc : loopCond s = false := by
      cases hb : loopCond s with
      | false => rfl
      | true => exact absurd ((modulus_test_iff_loopCond s).2 hb) hno
    rw [whileLoop_of_not_cond hc]
  | step s n hz hi _ ih =>
    rw [whileLoop_of_cond ((modulus_test_iff_loopCond s).1 ⟨hz, hi⟩)]
    exact ih

theorem modulusEval_whileLoop (c : Cx) (m : Nat) :
    ∀ s : LoopState, MAX_ITER + 1 - s.iter = m → ModulusEval c s (whileLoop c s).iter := by
  induction m with
  | zero =>
    intro s hm
    have hc : loopCond s = false := by
      cases h : loopCond s with
      | false => rfl
      | true => have := loopCond_iter_le h; omega
    rw [whileLoop_of_not_cond hc]
    exact ModulusEval.done s (fun h => by
      rw [modulus_test_iff_loopCond, hc] at h
      exact Bool.noConfusion h)
  | succ m ih =>
    intro s hm
    cases hc : loopCond s with
    | false =>
      rw [whileLoop_of_not_cond hc]
      exact ModulusEval.done s (fun h => by
        rw [modulus_test_iff_loopCond, hc] at h
        exact Bool.noConfusion h)
    | true =>
      have hh := (modulus_test_iff_loopCond s).2 hc
      rw [whileLoop_of_cond hc]
      exact ModulusEval.step s _ hh.1 hh.2 (ih _ (by simp only [loopBody]; omega))

/-- C12: in exact arithmetic the evaluator whose test is `sqrt (re^2 + im^2) < 2` and the one
whose test is `re^2 + im^2 < 4` return the same count for every `c`: the modulus evaluation
ends, its count is unique and is the count of the squared variant, which is also the value of
`convergence`; the two tests agree on every value of `z`. -/
theorem squared_variant_equivalent (c : Cx) :
    ModulusEval c initState (convergenceSquared c) ∧
      (∀ n, ModulusEval c initState n → n = convergenceSquared c) ∧
      convergence c = convergenceSquared c ∧
      (∀ z : Cx, modulusLt2 z ↔ squaredLt4 z = true) := by
  refine ⟨?_, fun n h => ?_, (convergenceSquared_eq c).symm, fun z => ?_⟩
  · rw [convergenceSquared_eq]
    exact modulusEval_whileLoop c _ initState rfl
  · rw [convergenceSquared_eq]
    exact modulusEval_unique c initState n h
  · rw [squaredLt4_eq_cabsLt2]
    exact modulusLt2_iff_cabsLt2 z

/-! ### A grid of one column -/

theorem gridPoints_one (x0 y0 : Dbl) (dx dy : Cx) (m : Nat) :
    ∀ i, gridPoints x0 y0 dx dy 1 m i =
      (List.range m).map (fun r => rowStart x0 y0 dy (i + r)) := by
  induction m with
  | zero => intro i; rfl
  | succ m ih =>
    intro i
    rw [gridPoints, ih (i + 1), List.range_succ_eq_map, List.map_cons, List.map_map]
    simp only [colPoints, List.singleton_append, Nat.add_zero, List.cons.injEq, true_and]
    apply List.map_congr_left
    intro r _
    simp only [Function.comp_apply]
    congr 1
    omega

/-- With one column, whatever is passed for `dx` the loops write the counts of the row
starts. -/
theorem rowLoop_one_column (x0 y0 : Dbl) (dx dy : Cx) (Ny : Int) (fp : File) :
    rowLoop x0 y0 dx dy 1 Ny 0 fp =
      fp ++ (List.range Ny.toNat).map (fun r => resultLine (rowStart x0 y0 dy r)) := by
  rw [rowLoop_eq x0 y0 dx dy 1 Ny Ny.toNat 0 fp (by omega)]
  have h1 : (1 : Int).toNat = 1 := rfl
  rw [h1, gridPoints_one, List.map_map]
  congr 1
  apply List.map_congr_left
  intro r _
  simp only [Function.comp_apply, Nat.zero_add]

theorem orbitQ_i (n : Nat) :
    orbitQ 0 1 n = (0, 0) ∨ orbitQ 0 1 n = (0, 1) ∨ orbitQ 0 1 n = (-1, 1) ∨
      orbitQ 0 1 n = (0, -1) := by
  induction n with
  | zero => exact Or.inl rfl
  | succ n ih =>
    rcases ih with h | h | h | h
    · right; left; simp [orbitQ, h]
    · right; right; left; simp [orbitQ, h]
    · right; right; right; simp [orbitQ, h]
    · right; right; left; simp [orbitQ, h]

theorem convergence_i : convergence (Cx.ofRat 0 1) = 81 := by
  apply convergence_of_inside
  intro n _
  rw [orbit_eq_orbitQ, abs_lt_two_iff]
  rcases orbitQ_i n with h | h | h | h <;> rw [h] <;> norm_num

theorem rowLoop_one_column_any (x0 y0 : Dbl) (dx dx' dy : Cx) (Ny : Int) (fp : File) :
    rowLoop x0 y0 dx dy 1 Ny 0 fp = rowLoop x0 y0 dx' dy 1 Ny 0 fp := by
  rw [rowLoop_one_column, rowLoop_one_column]

theorem mainBody_one_column (x0 x1 y0 y1 : ℚ) (Ny : Int) (hy : Ny ≠ 1) :
    mainBody x0 x1 1 y0 y1 Ny =
      header x0 x1 1 y0 y1 Ny ::
        (List.range Ny.toNat).map
          (fun i : Nat =>
            fmtInt (convergence (Cx.ofRat x0 (y0 + i * ((y1 - y0) / (Ny - 1)))))) := by
  rw [mainBody, rowLoop_one_column, stepY_finite y0 y1 Ny hy]
  simp only [rowStart_finite, resultLine, List.singleton_append]

/-- C13, as stated, fails: for `x0 = 0, x1 = 1, Nx = 1, y0 = 0, y1 = 1, Ny = 2` the step `dx` is
not finite, yet the file holds the counts of the finite points `0` and `i`, 81 and 81, and no
value of `dx` gives another file. -/
theorem single_column_counterexample :
    (stepX 0 1 1).re = Dbl.nonfinite ∧
      mainBody 0 1 1 0 1 2 = [header 0 1 1 0 1 2, "81", "81"] ∧
      ¬ ∃ dx : Cx,
        rowLoop (Dbl.fin 0) (Dbl.fin 0) dx (stepY 0 1 2) 1 2 0 [header 0 1 1 0 1 2] ≠
          mainBody 0 1 1 0 1 2 := by
  refine ⟨by rw [stepX_degenerate], ?_, ?_⟩
  · rw [mainBody_one_column 0 1 0 1 2 (by decide)]
    have h2 : (2 : Int).toNat = 2 := rfl
    have e81 : fmtInt ((81 : Nat) : Int) = "81" := by decide
    simp only [h2, List.range_succ, List.range_zero, List.nil_append, List.map_cons,
      List.map_nil, List.cons_append]
    norm_num
    rw [convergence_origin, convergence_i]
    exact ⟨e81, e81⟩
  · rintro ⟨dx, hdx⟩
    exact hdx (rowLoop_one_column_any _ _ _ _ _ _ _)

/-- C13, amended: for a grid with `Nx = 1` and `Ny ≥ 2` the step `dx` produced by the division
by zero is not finite, but it reaches no coordinate at which the evaluator is called: each row
evaluates only its start `x0 + (y0 + i * dy) i` before `dx` is added, so the counts written
do not depend on the value of `dx`. -/
theorem single_column_independent (x0 x1 y0 y1 : ℚ) (Ny : Int) (hy : 2 ≤ Ny) :
    (stepX x0 x1 1).re = Dbl.nonfinite ∧
      (∀ dx : Cx,
        rowLoop (Dbl.fin x0) (Dbl.fin y0) dx (stepY y0 y1 Ny) 1 Ny 0
            [header x0 x1 1 y0 y1 Ny] =
          mainBody x0 x1 1 y0 y1 Ny) ∧
      mainBody x0 x1 1 y0 y1 Ny =
        header x0 x1 1 y0 y1 Ny ::
          (List.range Ny.toNat).map
            (fun i : Nat => fmtInt (convergence (Cx.ofRat x0 (y0 + i * ((y1 - y0) / (Ny - 1)))))) :=
  ⟨by rw [stepX_degenerate], fun dx => rowLoop_one_column_any _ _ _ _ _ _ _,
    mainBody_one_column x0 x1 y0 y1 Ny (by omega)⟩

theorem single_column_independent_witness :
    rowLoop (Dbl.fin 0) (Dbl.fin 0) (Cx.ofRat 5 0) (stepY 0 1 2) 1 2 0 [header 0 1 1 0 1 2] =
      mainBody 0 1 1 0 1 2 :=
  (single_column_independent 0 1 0 1 2 (by decide)).2.1 (Cx.ofRat 5 0)

/-! ### Determinism -/

theorem exists_eight (argv : List String) (h : 8 ≤ argv.length) :
    ∃ p a1 a2 a3 a4 a5 a6 f rest, argv = p :: a1 :: a2 :: a3 :: a4 :: a5 :: a6 :: f :: rest := by
  match argv, h with
  | p :: a1 :: a2 :: a3 :: a4 :: a5 :: a6 :: f :: rest, _ =>
    exact ⟨p, a1, a2, a3, a4, a5, a6, f, rest, rfl⟩

/-! ### `convergence` over any machine -/

theorem machine_loopCond_iter_le (M : Machine) {s : M.LoopVars} (h : M.loopCond s = true) :
    s.iter ≤ MAX_ITER := by
  simp only [Machine.loopCond, Bool.and_eq_true, decide_eq_true_eq] at h
  exact h.2

theorem machine_whileLoop_step (M : Machine) {c : M.C} {s : M.LoopVars}
    (h : M.loopCond s = true) : M.whileLoop c s = M.whileLoop c (M.loopBody c s) := by
  rw [Machine.whileLoop, if_pos h]

theorem machine_whileLoop_stop (M : Machine) {c : M.C} {s : M.LoopVars}
    (h : M.loopCond s = false) : M.whileLoop c s = s := by
  rw [Machine.whileLoop, if_neg (by simp [h])]

theorem machine_whileLoop_iterate (M : Machine) (c : M.C) (k : Nat) :
    ∀ s : M.LoopVars, (∀ j, j < k → M.loopCond ((M.loopBody c)^[j] s) = true) →
      M.whileLoop c s = M.whileLoop c ((M.loopBody c)^[k] s) := by
  induction k with
  | zero => intro s _; rfl
  | succ k ih =>
    intro s h
    have h0 : M.loopCond s = true := h 0 (Nat.succ_pos k)
    rw [machine_whileLoop_step M h0, Function.iterate_succ_apply]
    exact ih _ (fun j hj => by
      have := h (j + 1) (Nat.succ_lt_succ hj)
      rwa [Function.iterate_succ_apply] at this)

/-- After `n` executions of the body, `z` is the `n`-th point of the machine's orbit and `iter`
is `n`. -/
theorem machine_iterate_eq_orbit (M : Machine) (c : M.C) (n : Nat) :
    (M.loopBody c)^[n] M.initVars = ⟨M.orbit c n, n⟩ := by
  induction n with
  | zero => rfl
  | succ n ih =>
    rw [Function.iterate_succ_apply', ih]
    rfl

theorem machine_loopCond_orbit (M : Machine) (c : M.C) (n : Nat) :
    M.loopCond ((M.loopBody c)^[n] M.initVars) = true ↔
      M.cabsLt2 (M.orbit c n) = true ∧ n ≤ MAX_ITER := by
  rw [machine_iterate_eq_orbit]
  simp [Machine.loopCond]

theorem machine_loopCond_cap (M : Machine) (c : M.C) :
    M.loopCond ((M.loopBody c)^[MAX_ITER + 1] M.initVars) = false := by
  cases h : M.loopCond ((M.loopBody c)^[MAX_ITER + 1] M.initVars) with
  | false => rfl
  | true =>
    have := ((machine_loopCond_orbit M c _).1 h).2
    omega

theorem machine_convergence_eq_first_exit (M : Machine) (c : M.C) (k : Nat)
    (hlt : ∀ j, j < k → M.loopCond ((M.loopBody c)^[j] M.initVars) = true)
    (hk : M.loopCond ((M.loopBody c)^[k] M.initVars) = false) :
    M.whileLoop c M.initVars = (M.loopBody c)^[k] M.initVars ∧ M.convergence c = k := by
  have h : M.whileLoop c M.initVars = (M.loopBody c)^[k] M.initVars := by
    rw [machine_whileLoop_iterate M c k M.initVars hlt]
    exact machine_whileLoop_stop M hk
  refine ⟨h, ?_⟩
  rw [Machine.convergence, h, machine_iterate_eq_orbit]

theorem machine_convergence_exit (M : Machine) (c : M.C) :
    M.loopCond ((M.loopBody c)^[M.convergence c] M.initVars) = false ∧
      ∀ j, j < M.convergence c → M.loopCond ((M.loopBody c)^[j] M.initVars) = true := by
  have hex : ∃ k, M.loopCond ((M.loopBody c)^[k] M.initVars) = false :=
    ⟨MAX_ITER + 1, machine_loopCond_cap M c⟩
  have hk := Nat.find_spec hex
  have hlt : ∀ j, j < Nat.find hex → M.loopCond ((M.loopBody c)^[j] M.initVars) = true :=
    fun j hj => by
      have := Nat.find_min hex hj
      simpa using this
  rw [(machine_convergence_eq_first_exit M c (Nat.find hex) hlt hk).2]
  exact ⟨hk, hlt⟩

theorem machine_convergence_le (M : Machine) (c : M.C) : M.convergence c ≤ MAX_ITER + 1 := by
  by_contra hgt
  have h := (machine_convergence_exit M c).2 (MAX_ITER + 1) (by omega)
  rw [machine_loopCond_cap] at h
  exact Bool.false_ne_true h

theorem machine_convergence_pos (M : Machine) (c : M.C) : 1 ≤ M.convergence c := by
  by_contra hlt
  have h0 : M.convergence c = 0 := by omega
  have h := (machine_convergence_exit M c).1
  rw [h0] at h
  have h1 := (machine_loopCond_orbit M c 0).2 ⟨M.cabsLt2_zero, Nat.zero_le _⟩
  rw [h] at h1
  exact Bool.false_ne_true h1

theorem machine_convergence_of_inside (M : Machine) (c : M.C)
    (h : ∀ n, n ≤ MAX_ITER → M.cabsLt2 (M.orbit c n) = true) :
    M.convergence c = MAX_ITER + 1 :=
  (machine_convergence_eq_first_exit M c _
    (fun j hj => (machine_loopCond_orbit M c j).2 ⟨h j (by omega), by omega⟩)
    (machine_loopCond_cap M c)).2

/-- C1: whatever the arithmetic of the machine, and for every `c`, finite or not, `convergence`
returns the first index at which the loop condition `|z_n| < 2` fails, capped: with `z_0 = 0`
and `z_{k+1} = z_k * z_k + c` as the machine computes them, the result is the least `n` in
`1..81` such that the test `cabs(z_n) < 2` is false or `n = 81`; it is 81 exactly when the
test holds for every `n ≤ 80`, so `z_81` plays no part. -/
theorem machine_convergence_least_exit (M : Machine) (c : M.C) :
    1 ≤ M.convergence c ∧ M.convergence c ≤ 81 ∧
      (M.cabsLt2 (M.orbit c (M.convergence c)) = false ∨ M.convergence c = 81) ∧
      (∀ m, 1 ≤ m → m < M.convergence c →
        ¬ (M.cabsLt2 (M.orbit c m) = false ∨ m = 81)) ∧
      (M.convergence c = 81 ↔ ∀ m, m ≤ 80 → M.cabsLt2 (M.orbit c m) = true) := by
  have hle : M.convergence c ≤ 81 := machine_convergence_le M c
  have hex := machine_convergence_exit M c
  have hin : ∀ m, m < M.convergence c → M.cabsLt2 (M.orbit c m) = true :=
    fun m hm => ((machine_loopCond_orbit M c m).1 (hex.2 m hm)).1
  refine ⟨machine_convergence_pos M c, hle, ?_, ?_, ?_⟩
  · by_contra hno
    rw [not_or] at hno
    have ht : M.cabsLt2 (M.orbit c (M.convergence c)) = true := by
      cases hb : M.cabsLt2 (M.orbit c (M.convergence c)) with
      | true => rfl
      | false => exact absurd hb hno.1
    have hc := (machine_loopCond_orbit M c _).2 ⟨ht, by
      have := hno.2
      change M.convergence c ≤ 80
      omega⟩
    rw [hex.1] at hc
    exact Bool.false_ne_true hc
  · intro m _ hm hor
    rcases hor with h2 | h81
    · rw [hin m hm] at h2
      exact Bool.noConfusion h2
    · omega
  · constructor
    · intro h81 m hm
      exact hin m (by omega)
    · intro hall
      exact machine_convergence_of_inside M c hall

/-- C5: whatever the arithmetic of the machine, when the test `|z_n| < 2` holds on the orbit
the machine computes for every `n` in `0..80`, the loop condition holds in each of the states
with `iter = 0, …, MAX_ITER`, so the body executes for each of them, and `convergence` returns
`MAX_ITER + 1 = 81`. -/
theorem machine_convergence_never_escapes (M : Machine) (c : M.C)
    (h : ∀ n, n ≤ 80 → M.cabsLt2 (M.orbit c n) = true) :
    (∀ j, j ≤ MAX_ITER →
        M.loopCond ((M.loopBody c)^[j] M.initVars) = true ∧
          ((M.loopBody c)^[j] M.initVars).iter = j) ∧
      M.convergence c = MAX_ITER + 1 ∧ M.convergence c = 81 :=
  ⟨fun j hj => ⟨(machine_loopCond_orbit M c j).2 ⟨h j hj, hj⟩, by
      rw [machine_iterate_eq_orbit]⟩,
    machine_convergence_of_inside M c h, machine_convergence_of_inside M c h⟩

/-! ### The machine of exact arithmetic -/

theorem exact_zero : exactMachine.toComplex (exactMachine.ofInt 0) = Cx.ofRat 0 0 := by
  change Cx.ofReal (Dbl.fin ((0 : Int) : ℚ)) = Cx.ofRat 0 0
  rw [Int.cast_zero]
  rfl

theorem exact_orbit_ofRat (a b : ℚ) (n : Nat) :
    exactMachine.orbit (Cx.ofRat a b) n = Cx.ofRat (orbitQ a b n).1 (orbitQ a b n).2 := by
  induction n with
  | zero => exact exact_zero
  | succ n ih =>
    rw [Machine.orbit, ih]
    rfl

theorem exact_cabs_orbit (a b : ℚ) (n : Nat) :
    exactMachine.cabsLt2 (exactMachine.orbit (Cx.ofRat a b) n) = true ↔
      Complex.abs (orbit ⟨a, b⟩ n) < 2 := by
  rw [exact_orbit_ofRat, orbit_eq_orbitQ]
  exact cabsLt2_ofRat _ _

theorem exact_iterate (c : Cx) (n : Nat) :
    (exactMachine.loopBody c)^[n] exactMachine.initVars =
      ⟨(stateAfter c n).z, (stateAfter c n).iter⟩ := by
  induction n with
  | zero =>
    change Machine.LoopVars.mk (exactMachine.toComplex (exactMachine.ofInt 0)) 0 = _
    rw [exact_zero]
    rfl
  | succ n ih =>
    have hs : stateAfter c (n + 1) = loopBody c (stateAfter c n) := by
      rw [stateAfter, Function.iterate_succ_apply']; rfl
    rw [Function.iterate_succ_apply', ih, hs]
    rfl

theorem exact_loopCond (c : Cx) (n : Nat) :
    exactMachine.loopCond ((exactMachine.loopBody c)^[n] exactMachine.initVars) =
      loopCond (stateAfter c n) := by
  rw [exact_iterate]
  rfl

/-- On the machine of exact arithmetic the evaluator is `convergence` of the first part. -/
theorem exact_convergence (c : Cx) : exactMachine.convergence c = convergence c :=
  (machine_convergence_eq_first_exit exactMachine c (convergence c)
    (fun j hj => by rw [exact_loopCond]; exact (convergence_exit c).2 j hj)
    (by rw [exact_loopCond]; exact (convergence_exit c).1)).2

theorem machine_convergence_never_escapes_witness :
    exactMachine.convergence (Cx.ofRat 0 0) = 81 ∧
      exactMachine.convergence (Cx.ofRat (-1) 0) = 81 :=
  ⟨(machine_convergence_never_escapes exactMachine (Cx.ofRat 0 0)
      (fun n _ => (exact_cabs_orbit 0 0 n).2 (orbit_origin_inside n))).2.2,
   (machine_convergence_never_escapes exactMachine (Cx.ofRat (-1) 0)
      (fun n _ => (exact_cabs_orbit (-1) 0 n).2 (orbit_neg_one_inside n))).2.2⟩

/-! ### The loops of `main` over any machine -/

theorem machine_colLoop_fp (M : Machine) (dx : M.C) (Nx : Int) (n : Nat) :
    ∀ (j : Nat) (v : M.MainVars), Nx.toNat - j = n →
      (M.colLoop dx Nx j v).fp =
        v.fp ++ (M.colPoints dx n v.z).map (fun z => fmtInt (M.convergence z)) := by
  induction n with
  | zero =>
    intro j v h
    rw [Machine.colLoop, if_neg (by omega)]
    simp [Machine.colPoints]
  | succ n ih =>
    intro j v h
    rw [Machine.colLoop, if_pos (by omega), ih (j + 1) _ (by omega)]
    simp [Machine.colPoints]

theorem machine_rowLoop_fp (M : Machine) (x0 y0 : M.R) (dx dy : M.C) (Nx Ny : Int) (m : Nat) :
    ∀ (i : Nat) (v : M.MainVars), Ny.toNat - i = m →
      (M.rowLoop x0 y0 dx dy Nx Ny i v).fp =
        v.fp ++ (M.gridPoints x0 y0 dx dy Nx.toNat m i).map
          (fun z => fmtInt (M.convergence z)) := by
  induction m with
  | zero =>
    intro i v h
    rw [Machine.rowLoop, if_neg (by omega)]
    simp [Machine.gridPoints]
  | succ m ih =>
    intro i v h
    rw [Machine.rowLoop, if_pos (by omega), ih (i + 1) _ (by omega),
      machine_colLoop_fp M dx Nx Nx.toNat 0 _ (by omega)]
    simp [Machine.gridPoints]

/-- The file written by `main` on any machine: the header, then the count of each point of
the grid.  Neither the values `z` and `iter` held at their declaration nor the previous content
of the file appear in it. -/
theorem machine_mainBody_eq (M : Machine) (x0 x1 : M.R) (Nx : Int) (y0 y1 : M.R) (Ny : Int)
    (z0 : M.C) (iter0 : Int) (old : File) :
    M.mainBody x0 x1 Nx y0 y1 Ny z0 iter0 old =
      M.header x0 x1 Nx y0 y1 Ny ::
        (M.gridPoints x0 y0 (M.toComplex (M.div (M.sub x1 x0) (M.ofInt (Nx - 1))))
          (M.toComplex (M.div (M.sub y1 y0) (M.ofInt (Ny - 1))))
          Nx.toNat Ny.toNat 0).map (fun z => fmtInt (M.convergence z)) := by
  rw [Machine.mainBody, machine_rowLoop_fp M _ _ _ _ Nx Ny Ny.toNat 0 _ (by omega)]
  rfl

theorem machine_colPoints_length (M : Machine) (dx : M.C) (n : Nat) :
    ∀ z, (M.colPoints dx n z).length = n := by
  induction n with
  | zero => intro z; rfl
  | succ n ih => intro z; simp [Machine.colPoints, ih]

theorem machine_gridPoints_length (M : Machine) (x0 y0 : M.R) (dx dy : M.C) (nx m : Nat) :
    ∀ i, (M.gridPoints x0 y0 dx dy nx m i).length = m * nx := by
  induction m with
  | zero => intro i; simp [Machine.gridPoints]
  | succ m ih =>
    intro i
    simp [Machine.gridPoints, ih, machine_colPoints_length]
    ring

theorem machine_colPoints_get (M : Machine) (dx : M.C) (n : Nat) :
    ∀ (z : M.C) (j : Nat), j < n →
      (M.colPoints dx n z)[j]? = some ((fun w => M.add w dx)^[j] z) := by
  induction n with
  | zero => intro z j h; omega
  | succ n ih =>
    intro z j h
    cases j with
    | zero => simp [Machine.colPoints]
    | succ j =>
      simp only [Machine.colPoints, List.getElem?_cons_succ, Function.iterate_succ_apply]
      exact ih _ j (by omega)

theorem machine_gridPoints_get (M : Machine) (x0 y0 : M.R) (dx dy : M.C) (nx m : Nat) :
    ∀ (i r j : Nat), r < m → j < nx →
      (M.gridPoints x0 y0 dx dy nx m i)[r * nx + j]? =
        some ((fun w => M.add w dx)^[j] (M.rowStart x0 y0 dy (i + r))) := by
  induction m with
  | zero => intro i r j h; omega
  | succ m ih =>
    intro i r j hr hj
    cases r with
    | zero =>
      rw [Machine.gridPoints, Nat.zero_mul, Nat.zero_add,
        List.getElem?_append_left (by rw [machine_colPoints_length]; exact hj)]
      exact machine_colPoints_get M dx nx _ j hj
    | succ r =>
      have hlen := machine_colPoints_length M dx nx (M.rowStart x0 y0 dy i)
      have hidx : (r + 1) * nx + j - nx = r * nx + j := by
        rw [Nat.succ_mul]; omega
      rw [Machine.gridPoints,
        List.getElem?_append_right (by rw [hlen, Nat.succ_mul]; omega), hlen,
        hidx, ih (i + 1) r j (by omega) hj]
      congr 3
      omega

/-- C7: whatever the arithmetic of the machine, for row `i` in `[0, Ny)` and column `j` in
`[0, Nx)`, result line `i * Nx + j` (after the header) is the count of the point obtained from
the row start `x0 + (y0 + i*dy)*I`, computed afresh from `i`, by adding `dx` to it `j` times
with the machine's sum: a running accumulator, reset at every row start, rows outer and
columns inner.  Here `dx = (x1 - x0)/(Nx - 1)` and `dy = (y1 - y0)/(Ny - 1)` as the machine
computes them. -/
theorem machine_row_major (M : Machine) (x0 x1 : M.R) (Nx : Int) (y0 y1 : M.R) (Ny : Int)
    (z0 : M.C) (iter0 : Int) (old : File)
    (i j : Nat) (hi : (i : Int) < Ny) (hj : (j : Int) < Nx) :
    (M.mainBody x0 x1 Nx y0 y1 Ny z0 iter0 old)[1 + (i * Nx.toNat + j)]? =
      some (fmtInt (M.convergence
        ((fun z => M.add z (M.toComplex (M.div (M.sub x1 x0) (M.ofInt (Nx - 1)))))^[j]
          (M.realAdd x0 (M.mul
            (M.realAdd y0 (M.realMul (M.ofInt i)
              (M.toComplex (M.div (M.sub y1 y0) (M.ofInt (Ny - 1))))))
            M.imagUnit))))) := by
  rw [machine_mainBody_eq, Nat.add_comm 1, List.getElem?_cons_succ, List.getElem?_map,
    machine_gridPoints_get M _ _ _ _ _ _ 0 i j (by omega) (by omega), Nat.zero_add]
  rfl

theorem machine_row_major_witness :
    (exactMachine.mainBody (FloatArg.finite 0) (FloatArg.finite 1) 11 (FloatArg.finite 0)
        (FloatArg.finite 1) 2 (Cx.ofRat 7 7) 5 [])[1 + (0 * (11 : Int).toNat + 10)]? =
      some (fmtInt (exactMachine.convergence
        ((fun z => exactMachine.add z (exactMachine.toComplex (exactMachine.div
            (exactMachine.sub (FloatArg.finite 1) (FloatArg.finite 0))
            (exactMachine.ofInt (11 - 1)))))^[10]
          (exactMachine.realAdd (FloatArg.finite 0) (exactMachine.mul
            (exactMachine.realAdd (FloatArg.finite 0) (exactMachine.realMul
              (exactMachine.ofInt (0 : Nat))
              (exactMachine.toComplex (exactMachine.div
                (exactMachine.sub (FloatArg.finite 1) (FloatArg.finite 0))
                (exactMachine.ofInt (2 - 1))))))
            exactMachine.imagUnit))))) :=
  machine_row_major exactMachine (FloatArg.finite 0) (FloatArg.finite 1) 11
    (FloatArg.finite 0) (FloatArg.finite 1) 2 (Cx.ofRat 7 7) 5 [] 0 10 (by decide) (by decide)

/-! ### Determinism over any machine -/

theorem machine_mainBody_indep (M : Machine) (x0 x1 : M.R) (Nx : Int) (y0 y1 : M.R) (Ny : Int)
    (z0 z0' : M.C) (iter0 iter0' : Int) (old old' : File) :
    M.mainBody x0 x1 Nx y0 y1 Ny z0 iter0 old = M.mainBody x0 x1 Nx y0 y1 Ny z0' iter0' old' := by
  rw [machine_mainBody_eq, machine_mainBody_eq]

theorem machine_main_indep (M : Machine) (p p' f f' a1 a2 a3 a4 a5 a6 : String)
    (rest rest' : List String) (z0 z0' : M.C) (iter0 iter0' : Int) (old old' : File) :
    M.main (p :: a1 :: a2 :: a3 :: a4 :: a5 :: a6 :: f :: rest) z0 iter0 old =
      M.main (p' :: a1 :: a2 :: a3 :: a4 :: a5 :: a6 :: f' :: rest') z0' iter0' old' := by
  simp only [Machine.main]
  cases atoi a1 <;> cases atoi a3 <;> cases atoi a6 <;> try rfl
  simp only [Option.some.injEq]
  exact machine_mainBody_indep M _ _ _ _ _ _ _ _ _ _ _ _

/-- C11: the program is deterministic on any machine whose operations are functions.  The
locals of `convergence` are initialised before its loop and it only reads `*c`, so its value
is a function of `c`.  Two runs of `main` whose six grid arguments (`argv[1]` to `argv[6]`) are
the same write the same file, line for line and byte for byte, whatever values `z` and `iter`
hold when they are declared in each run, whatever the output files held before, and whatever
the program names and output paths are. -/
theorem machine_runs_identical (M : Machine) (argv argv' : List String)
    (z0 z0' : M.C) (iter0 iter0' : Int) (old old' : File)
    (h8 : 8 ≤ argv.length) (h8' : 8 ≤ argv'.length)
    (hargs : (argv.drop 1).take 6 = (argv'.drop 1).take 6) :
    M.main argv z0 iter0 old = M.main argv' z0' iter0' old' ∧
      (M.main argv z0 iter0 old).map fileText = (M.main argv' z0' iter0' old').map fileText ∧
      (∀ c : M.C, M.convergence c = (M.whileLoop c ⟨M.toComplex (M.ofInt 0), 0⟩).iter) := by
  obtain ⟨p, a1, a2, a3, a4, a5, a6, f, rest, rfl⟩ := exists_eight argv h8
  obtain ⟨p', b1, b2, b3, b4, b5, b6, f', rest', rfl⟩ := exists_eight argv' h8'
  simp only [List.drop_succ_cons, List.drop_zero, List.take_succ_cons, List.take_zero,
    List.cons.injEq, and_true] at hargs
  obtain ⟨rfl, rfl, rfl, rfl, rfl, rfl⟩ := hargs
  have hm := machine_main_indep M p p' f f' a1 a2 a3 a4 a5 a6 rest rest' z0 z0' iter0 iter0'
    old old'
  exact ⟨hm, by rw [hm], fun c => rfl⟩

theorem machine_runs_identical_witness :
    exactMachine.main ["mandelbrot", "-2", "1", "3", "-1", "1", "3", "first.txt"]
        (Cx.ofRat 0 0) 0 [] =
      exactMachine.main ["./a.out", "-2", "1", "3", "-1", "1", "3", "second.txt", "extra"]
        (Cx.ofRat 7 (-3)) 12345 ["stale line"] :=
  (machine_runs_identical exactMachine
    ["mandelbrot", "-2", "1", "3", "-1", "1", "3", "first.txt"]
    ["./a.out", "-2", "1", "3", "-1", "1", "3", "second.txt", "extra"]
    (Cx.ofRat 0 0) (Cx.ofRat 7 (-3)) 0 12345 [] ["stale line"]
    (by decide) (by decide) (by decide)).1

/-! ### The header for every argument -/

theorem atof_one : atof "1" = 1 := by
  simp [atof, skipSpace, isSpace, readSign, readDigits, readFraction, readExponent, digitVal]

theorem atof_neg_one : atof "-1" = -1 := by
  simp [atof, skipSpace, isSpace, readSign, readDigits, readFraction, readExponent, digitVal]

theorem overflowBound_gt_one : ¬ (overflowBound ≤ |(1 : ℚ)|) := by
  rw [overflowBound]; norm_num

theorem atofFull_one : atofFull "1" = FloatArg.finite 1 := by
  have h1 : startsWithNoCase ['i', 'n', 'f'] (readSign (skipSpace "1".toList)).2 = false := rfl
  have h2 : startsWithNoCase ['n', 'a', 'n'] (readSign (skipSpace "1".toList)).2 = false := rfl
  have h3 : (readSign (skipSpace "1".toList)).1 = false := rfl
  simp only [atofFull, h1, h2, h3, atof_one, if_neg overflowBound_gt_one]
  simp

theorem atofFull_neg_one : atofFull "-1" = FloatArg.finite (-1) := by
  have h1 : startsWithNoCase ['i', 'n', 'f'] (readSign (skipSpace "-1".toList)).2 = false := rfl
  have h2 : startsWithNoCase ['n', 'a', 'n'] (readSign (skipSpace "-1".toList)).2 = false := rfl
  have hb : ¬ (overflowBound ≤ |(-1 : ℚ)|) := by
    rw [abs_neg]; exact overflowBound_gt_one
  simp only [atofFull, h1, h2, atof_neg_one, if_neg hb]
  simp

theorem atofFull_inf : atofFull "inf" = FloatArg.infinity false := rfl

theorem atofFull_nan : atofFull "nan" = FloatArg.notANumber false := rfl

theorem fmtFixed_neg_two : fmtFixed (-2) = "-2.000000" := by
  have h : roundHalfEven (|(-2 : ℚ)| * 1000000) = 2000000 := by norm_num [roundHalfEven]
  simp only [fmtFixed, h]
  decide

theorem fmtFixed_one : fmtFixed 1 = "1.000000" := by
  have h : roundHalfEven (|(1 : ℚ)| * 1000000) = 1000000 := by norm_num [roundHalfEven]
  simp only [fmtFixed, h]
  decide

theorem fmtFixed_neg_one : fmtFixed (-1) = "-1.000000" := by
  have h : roundHalfEven (|(-1 : ℚ)| * 1000000) = 1000000 := by norm_num [roundHalfEven]
  simp only [fmtFixed, h]
  decide

theorem fixedSixShape_of_isFixedSix (q : ℚ) (s : String) (h : IsFixedSix q s) :
    FixedSixShape s := by
  obtain ⟨ip, fp, hs, hne, hip, hlen, hfp, _⟩ := h
  refine ⟨if q < 0 then ['-'] else [], ip, fp, hs, ?_, hne, hip, hlen, hfp⟩
  split_ifs
  · exact Or.inr rfl
  · exact Or.inl rfl

/-- A finite argument, negative zero included, is printed in the shape of fixed notation. -/
theorem fmtFloat_shape (v : FloatArg) (h : v.IsFinite) : FixedSixShape (fmtFloat v) := by
  cases v with
  | finite q => exact fixedSixShape_of_isFixedSix q _ (fmtFixed_isFixedSix q)
  | negZero =>
    refine ⟨['-'], ['0'], ['0', '0', '0', '0', '0', '0'], rfl, Or.inr rfl, by simp, ?_, rfl, ?_⟩
    · intro ch hch
      rw [List.mem_singleton] at hch
      rw [hch]; rfl
    · intro ch hch
      have : ch = '0' := by simpa using hch
      rw [this]; rfl
  | infinity neg => exact absurd h (by simp [FloatArg.IsFinite])
  | notANumber neg => exact absurd h (by simp [FloatArg.IsFinite])

/-- A text without a point does not have the shape of fixed notation. -/
theorem not_fixedSixShape_of_no_point (s : String) (h : '.' ∉ s.toList) :
    ¬ FixedSixShape s := by
  rintro ⟨sg, ip, fp, hs, _⟩
  apply h
  rw [hs]
  simp

theorem machine_mainBody_head (M : Machine) (x0 x1 : M.R) (Nx : Int) (y0 y1 : M.R) (Ny : Int)
    (z0 : M.C) (iter0 : Int) (old : File) :
    (M.mainBody x0 x1 Nx y0 y1 Ny z0 iter0 old).head? = some (M.header x0 x1 Nx y0 y1 Ny) := by
  rw [machine_mainBody_eq]
  rfl

theorem machine_mainBody_tail_length (M : Machine) (x0 x1 : M.R) (Nx : Int) (y0 y1 : M.R)
    (Ny : Int) (z0 : M.C) (iter0 : Int) (old : File) :
    (M.mainBody x0 x1 Nx y0 y1 Ny z0 iter0 old).tail.length = Ny.toNat * Nx.toNat := by
  rw [machine_mainBody_eq]
  simp only [List.tail_cons, List.length_map, machine_gridPoints_length]

theorem exact_main_example (z0 : Cx) (iter0 : Int) (old : File) :
    exactMachine.main ["mandelbrot", "-2", "1", "3", "-1", "1", "3", "out.txt"] z0 iter0 old =
      some (exactMachine.mainBody (FloatArg.finite (-2)) (FloatArg.finite 1) 3
        (FloatArg.finite (-1)) (FloatArg.finite 1) 3 z0 iter0 old) := by
  have a1 : atoi "-2" = some (-2) := by decide
  have a3 : atoi "3" = some 3 := by decide
  have e1 : exactMachine.atof "1" = FloatArg.finite 1 := atofFull_one
  have e2 : exactMachine.atof "-1" = FloatArg.finite (-1) := atofFull_neg_one
  have e0 : exactMachine.ofInt (-2) = FloatArg.finite (-2) := by
    change FloatArg.finite (((-2 : Int)) : ℚ) = FloatArg.finite (-2)
    norm_num
  simp only [Machine.main, a1, a3, e1, e2, e0]

theorem exact_main_inf (z0 : Cx) (iter0 : Int) (old : File) :
    exactMachine.main ["mandelbrot", "-2", "inf", "3", "-1", "1", "3", "out.txt"] z0 iter0 old =
      some (exactMachine.mainBody (FloatArg.finite (-2)) (FloatArg.infinity false) 3
        (FloatArg.finite (-1)) (FloatArg.finite 1) 3 z0 iter0 old) := by
  have a1 : atoi "-2" = some (-2) := by decide
  have a3 : atoi "3" = some 3 := by decide
  have e1 : exactMachine.atof "1" = FloatArg.finite 1 := atofFull_one
  have e2 : exactMachine.atof "-1" = FloatArg.finite (-1) := atofFull_neg_one
  have ei : exactMachine.atof "inf" = FloatArg.infinity false := atofFull_inf
  have e0 : exactMachine.ofInt (-2) = FloatArg.finite (-2) := by
    change FloatArg.finite (((-2 : Int)) : ℚ) = FloatArg.finite (-2)
    norm_num
  simp only [Machine.main, a1, a3, e1, e2, ei, e0]

theorem exact_header_example :
    exactMachine.header (FloatArg.finite (-2)) (FloatArg.finite 1) 3
        (FloatArg.finite (-1)) (FloatArg.finite 1) 3 =
      "-2.000000 1.000000 3 -1.000000 1.000000 3" := by
  change fmtFixed (-2) ++ " " ++ fmtFixed 1 ++ " " ++ fmtInt 3 ++ " " ++
    fmtFixed (-1) ++ " " ++ fmtFixed 1 ++ " " ++ fmtInt 3 = _
  rw [fmtFixed_neg_two, fmtFixed_one, fmtFixed_neg_one]
  decide

theorem exact_header_inf :
    exactMachine.header (FloatArg.finite (-2)) (FloatArg.infinity false) 3
        (FloatArg.finite (-1)) (FloatArg.finite 1) 3 =
      "-2.000000 inf 3 -1.000000 1.000000 3" := by
  change fmtFixed (-2) ++ " " ++ "inf" ++ " " ++ fmtInt 3 ++ " " ++
    fmtFixed (-1) ++ " " ++ fmtFixed 1 ++ " " ++ fmtInt 3 = _
  rw [fmtFixed_neg_two, fmtFixed_one, fmtFixed_neg_one]
  decide

/-- C9, as stated, fails: for the arguments `-2 inf 3 -1 1 3` the bound `x1` is an infinity,
which `%f` prints as `inf`; the header is `-2.000000 inf 3 -1.000000 1.000000 3`, and its second
field is not in fixed notation. -/
theorem header_format_counterexample :
    (exactMachine.main ["mandelbrot", "-2", "inf", "3", "-1", "1", "3", "out.txt"]
        (Cx.ofRat 0 0) 0 []).bind List.head? =
        some "-2.000000 inf 3 -1.000000 1.000000 3" ∧
      exactMachine.fmtF (exactMachine.atof "inf") = "inf" ∧
      ¬ FixedSixShape "inf" ∧
      exactMachine.fmtF (exactMachine.atof "nan") = "nan" ∧
      ¬ FixedSixShape "nan" := by
  refine ⟨?_, rfl, not_fixedSixShape_of_no_point _ (by decide), rfl,
    not_fixedSixShape_of_no_point _ (by decide)⟩
  rw [exact_main_inf, Option.some_bind, machine_mainBody_head, exact_header_inf]

/-- C9, amended: on every machine the first line of the file is the six parameters in the
order `x0 x1 Nx y0 y1 Ny` with one space between them, the four bounds as `%f` prints them and
the two counts in plain decimal; for every input whose bounds `x1`, `y0`, `y1` are finite
(neither an infinity nor a NaN) the four bounds are in fixed notation with six digits after the
point; for the arguments `-2 1 3 -1 1 3` the header is
`-2.000000 1.000000 3 -1.000000 1.000000 3` and nine result lines follow it. -/
theorem machine_header_format :
    (∀ (M : Machine) (x0 : Int) (x1 y0 y1 : M.R) (Nx Ny : Int) (z0 : M.C) (iter0 : Int)
        (old : File),
      (M.mainBody (M.ofInt x0) x1 Nx y0 y1 Ny z0 iter0 old).head? =
        some (M.fmtF (M.ofInt x0) ++ " " ++ M.fmtF x1 ++ " " ++ fmtInt Nx ++ " " ++
          M.fmtF y0 ++ " " ++ M.fmtF y1 ++ " " ++ fmtInt Ny) ∧
      IsPlainDecimal Nx (fmtInt Nx) ∧ IsPlainDecimal Ny (fmtInt Ny)) ∧
    (∀ (x0 : Int) (x1 y0 y1 : FloatArg) (Nx Ny : Int) (z0 : Cx) (iter0 : Int) (old : File),
      x1.IsFinite → y0.IsFinite → y1.IsFinite →
      ∃ f0 f1 n2 f3 f4 n5 : String,
        (exactMachine.mainBody (exactMachine.ofInt x0) x1 Nx y0 y1 Ny z0 iter0 old).head? =
          some (f0 ++ " " ++ f1 ++ " " ++ n2 ++ " " ++ f3 ++ " " ++ f4 ++ " " ++ n5) ∧
        f0 = fmtFloat (FloatArg.finite x0) ∧ f1 = fmtFloat x1 ∧ n2 = fmtInt Nx ∧
        f3 = fmtFloat y0 ∧ f4 = fmtFloat y1 ∧ n5 = fmtInt Ny ∧
        FixedSixShape f0 ∧ FixedSixShape f1 ∧ IsPlainDecimal Nx n2 ∧
        FixedSixShape f3 ∧ FixedSixShape f4 ∧ IsPlainDecimal Ny n5) ∧
    ∀ (z0 : Cx) (iter0 : Int) (old : File),
      ∃ out : File,
        exactMachine.main ["mandelbrot", "-2", "1", "3", "-1", "1", "3", "out.txt"]
          z0 iter0 old = some out ∧
        out.head? = some "-2.000000 1.000000 3 -1.000000 1.000000 3" ∧
        out.tail.length = 9 := by
  refine ⟨fun M x0 x1 y0 y1 Nx Ny z0 iter0 old =>
    ⟨machine_mainBody_head M _ _ _ _ _ _ _ _ _, fmtInt_isPlainDecimal _,
      fmtInt_isPlainDecimal _⟩, ?_, ?_⟩
  · intro x0 x1 y0 y1 Nx Ny z0 iter0 old h1 h3 h4
    refine ⟨_, _, _, _, _, _, machine_mainBody_head _ _ _ _ _ _ _ _ _ _, rfl, rfl, rfl, rfl,
      rfl, rfl, fmtFloat_shape _ trivial, fmtFloat_shape _ h1, fmtInt_isPlainDecimal _,
      fmtFloat_shape _ h3, fmtFloat_shape _ h4, fmtInt_isPlainDecimal _⟩
  · intro z0 iter0 old
    refine ⟨_, exact_main_example z0 iter0 old, ?_, ?_⟩
    · rw [machine_mainBody_head, exact_header_example]
    · rw [machine_mainBody_tail_length]
      decide

theorem machine_header_format_witness :
    ∃ f0 f1 n2 f3 f4 n5 : String,
      (exactMachine.mainBody (exactMachine.ofInt (-2)) FloatArg.negZero 3
          (FloatArg.finite (-1)) (FloatArg.finite 1) 3 (Cx.ofRat 0 0) 0 []).head? =
        some (f0 ++ " " ++ f1 ++ " " ++ n2 ++ " " ++ f3 ++ " " ++ f4 ++ " " ++ n5) ∧
      f1 = "-0.000000" ∧ FixedSixShape f1 := by
  obtain ⟨f0, f1, n2, f3, f4, n5, hh, _, h1, _, _, _, _, _, hs, _⟩ :=
    machine_header_format.2.1 (-2) FloatArg.negZero (FloatArg.finite (-1)) (FloatArg.finite 1)
      3 3 (Cx.ofRat 0 0) 0 [] trivial trivial trivial
  exact ⟨f0, f1, n2, f3, f4, n5, hh, h1, hs⟩

/-! ### The two descriptions of `main` agree on finite bounds -/

theorem toDbl_ofDbl (d : Dbl) : (FloatArg.ofDbl d).toDbl = d := by
  cases d <;> rfl

theorem exact_step (a b : ℚ) (N : Int) :
    exactMachine.toComplex (exactMachine.div
        (exactMachine.sub (FloatArg.finite b) (FloatArg.finite a)) (exactMachine.ofInt (N - 1))) =
      stepX a b N := by
  change Cx.ofReal (FloatArg.ofDbl ((FloatArg.ofDbl (Dbl.fin b - Dbl.fin a)).toDbl /
    Dbl.fin (((N - 1 : Int)) : ℚ))).toDbl = _
  rw [toDbl_ofDbl, toDbl_ofDbl]
  rfl

theorem exact_colPoints (dx : Cx) (n : Nat) :
    ∀ z : Cx, exactMachine.colPoints dx n z = colPoints dx n z := by
  induction n with
  | zero => intro z; rfl
  | succ n ih =>
    intro z
    rw [Machine.colPoints, colPoints, ih]
    rfl

theorem exact_gridPoints (a c : ℚ) (dx dy : Cx) (nx m : Nat) :
    ∀ i, exactMachine.gridPoints (FloatArg.finite a) (FloatArg.finite c) dx dy nx m i =
      gridPoints (Dbl.fin a) (Dbl.fin c) dx dy nx m i := by
  induction m with
  | zero => intro i; rfl
  | succ m ih =>
    intro i
    rw [Machine.gridPoints, gridPoints, ih, exact_colPoints]
    rfl

/-- On finite bounds the file of the machine of exact arithmetic is the file of `mainBody`,
whatever `z` and `iter` held and whatever the file held before. -/
theorem exact_mainBody (a b : ℚ) (Nx : Int) (c d : ℚ) (Ny : Int)
    (z0 : Cx) (iter0 : Int) (old : File) :
    exactMachine.mainBody (FloatArg.finite a) (FloatArg.finite b) Nx (FloatArg.finite c)
        (FloatArg.finite d) Ny z0 iter0 old =
      mainBody a b Nx c d Ny := by
  rw [machine_mainBody_eq, mainBody_eq, exact_step, exact_step, exact_gridPoints]
  have hc : (fun z => fmtInt (exactMachine.convergence z)) = resultLine := by
    funext z
    rw [exact_convergence]
    rfl
  rw [hc]
  rfl

end Mandelbrot
